import Mathlib

/-!
Verification of the cross-filter dashboard engine of the Auto-BI repository.

The engine lives in the browser script embedded in `src/App.py` (the
functions `applyFilters`, `aggregate`, `numberFormat`, `toCSV`, `buildKPIs`
and the chart click handler), in the Python helpers of `src/bi_utils.py`
(`apply_filters`, `calc_kpi`) and in the JSON salvage function
`extract_json` of `src/App.py`.

JavaScript values appearing in the data payload are modelled by `Value`
(strings, rational numbers, booleans and `null`); an absent key
(`undefined`) is modelled by `Option.none`.  JavaScript numbers are
modelled by `JsNum`: a rational together with the special values `NaN`,
`Infinity` and `-Infinity`, which the engine produces and consumes
explicitly (`isNaN` guards, `Math.min()` on an empty spread, `0/0`).
-/

/-- A scalar cell value of the dataset payload: the JSON values produced by
`to_js_rows` in `src/App.py` (string, number, boolean or null). -/
inductive Value where
  | vStr  (s : String)
  | vNum  (q : ℚ)
  | vBool (b : Bool)
  | vNull
deriving DecidableEq

/-- JavaScript number semantics: finite rationals plus `NaN` and the two
infinities, which the dashboard engine manipulates explicitly. -/
inductive JsNum where
  | fin (q : ℚ)
  | nan
  | inf
  | ninf
deriving DecidableEq

namespace JsNum

/-- JavaScript `isNaN` on an already-converted number. -/
def isNaN : JsNum → Bool
  | nan => true
  | _ => false

/-- JavaScript `+` on numbers, idealized: the finite case adds exactly,
without the IEEE-754 binary64 rounding a JavaScript engine performs.
`JsNum.fpAdd` below refines the finite case with that rounding; this exact
version is kept for the places where rounding cannot fire (sums of the
empty list and the `NaN`/`Infinity` propagation cases). -/
def add : JsNum → JsNum → JsNum
  | nan, _ => nan
  | _, nan => nan
  | inf, ninf => nan
  | ninf, inf => nan
  | inf, _ => inf
  | _, inf => inf
  | ninf, _ => ninf
  | _, ninf => ninf
  | fin a, fin b => fin (a + b)

/-- JavaScript `Math.min` on two numbers (`Infinity` is its identity). -/
def min2 : JsNum → JsNum → JsNum
  | nan, _ => nan
  | _, nan => nan
  | inf, b => b
  | a, inf => a
  | ninf, _ => ninf
  | _, ninf => ninf
  | fin a, fin b => fin (min a b)

/-- JavaScript `Math.max` on two numbers (`-Infinity` is its identity). -/
def max2 : JsNum → JsNum → JsNum
  | nan, _ => nan
  | _, nan => nan
  | ninf, b => b
  | a, ninf => a
  | inf, _ => inf
  | _, inf => inf
  | fin a, fin b => fin (max a b)

/-- JavaScript `/` on numbers (`0/0` is `NaN`). -/
def div : JsNum → JsNum → JsNum
  | nan, _ => nan
  | _, nan => nan
  | inf, inf => nan
  | inf, ninf => nan
  | ninf, inf => nan
  | ninf, ninf => nan
  | inf, fin b => if b < 0 then ninf else inf
  | ninf, fin b => if b < 0 then inf else ninf
  | fin _, inf => fin 0
  | fin _, ninf => fin 0
  | fin a, fin b =>
      if b = 0 then (if a = 0 then nan else if a < 0 then ninf else inf)
      else fin (a / b)

/-- JavaScript `Math.abs`. -/
def abs : JsNum → JsNum
  | fin q => fin |q|
  | nan => nan
  | inf => inf
  | ninf => inf

/-- JavaScript `>=` on numbers (false whenever an operand is `NaN`). -/
def ge : JsNum → JsNum → Bool
  | nan, _ => false
  | _, nan => false
  | inf, _ => true
  | _, inf => false
  | _, ninf => true
  | ninf, _ => false
  | fin a, fin b => decide (b ≤ a)

end JsNum

/-- Digit characters of a natural number, most significant first. -/
def natChars (n : ℕ) : List Char :=
  if h : n < 10 then [Char.ofNat (48 + n)]
  else natChars (n / 10) ++ [Char.ofNat (48 + n % 10)]
decreasing_by exact Nat.div_lt_self (by omega) (by omega)

/-- Decimal string of a natural number. -/
def natStr (n : ℕ) : String := String.mk (natChars n)

/-- Least exponent `k ≤ 30` with `d ∣ 10 ^ k`, if any: the number of decimal
digits needed after the point to write a rational with denominator `d`
exactly. -/
def decExp (d : ℕ) : Option ℕ :=
  (List.range 31).find? (fun k => 10 ^ k % d = 0)

/-- Left-pad a digit list with zeros to width `k`. -/
def padZeros (k : ℕ) (cs : List Char) : List Char :=
  List.replicate (k - cs.length) '0' ++ cs

/-- JavaScript `String(n)` on a non-negative finite number: integers print
without a point, other decimal fractions with the minimal number of digits.
(Denominators not dividing a power of ten cannot arise from the JSON
payload; they fall back to a fraction notation.) -/
def numStrNN (q : ℚ) : String :=
  if q.den = 1 then natStr q.num.toNat
  else
    match decExp q.den with
    | some k =>
        let m := (q * (10 : ℚ) ^ k).num.toNat
        natStr (m / 10 ^ k) ++ "." ++ String.mk (padZeros k (natChars (m % 10 ^ k)))
    | none => natStr q.num.toNat ++ "/" ++ natStr q.den

/-- JavaScript `String(n)` on a finite number. -/
def numStr (q : ℚ) : String :=
  if q < 0 then "-" ++ numStrNN (-q) else numStrNN q

/-- JavaScript `String(v)` on a payload value (`undefined` is `none`):
the string encoding used for filter comparison and group labels. -/
def encodeJS : Option Value → String
  | none => "undefined"
  | some Value.vNull => "null"
  | some (Value.vStr s) => s
  | some (Value.vBool true) => "true"
  | some (Value.vBool false) => "false"
  | some (Value.vNum q) => numStr q

/-- JavaScript `toLowerCase` on one character (ASCII range, the only
characters appearing in aggregation kinds). -/
def lowerChar (c : Char) : Char :=
  if 65 ≤ c.toNat ∧ c.toNat ≤ 90 then Char.ofNat (c.toNat + 32) else c

/-- JavaScript `toLowerCase` on a string. -/
def lowerStr (s : String) : String := String.mk (s.toList.map lowerChar)

/-- Lexicographic comparison of character lists by code point, the order
JavaScript string comparison `a > b` induces on the group labels. -/
def charListLe : List Char → List Char → Bool
  | [], _ => true
  | _ :: _, [] => false
  | a :: as, b :: bs =>
      if a.toNat < b.toNat then true
      else if b.toNat < a.toNat then false
      else charListLe as bs

/-- Strict lexicographic comparison of character lists by code point. -/
def charListLt : List Char → List Char → Bool
  | [], [] => false
  | [], _ :: _ => true
  | _ :: _, [] => false
  | a :: as, b :: bs =>
      if a.toNat < b.toNat then true
      else if b.toNat < a.toNat then false
      else charListLt as bs

/-- Lexicographic string comparison (non-strict). -/
def strLe (a b : String) : Bool := charListLe a.toList b.toList

/-- Lexicographic string comparison (strict). -/
def strLt (a b : String) : Bool := charListLt a.toList b.toList

/-- JavaScript whitespace recognised by `Number(string)` trimming. -/
def isJsWs (c : Char) : Bool :=
  c = ' ' || c = '\t' || c = '\n' || c = '\r' || c = '\x0b' || c = '\x0c'

/-- Decimal digit test. -/
def isDigitCh (c : Char) : Bool := 48 ≤ c.val && c.val ≤ 57

/-- Numeric value of a digit list, most significant first. -/
def digitsVal (cs : List Char) : ℕ :=
  cs.foldl (fun a c => a * 10 + (c.toNat - 48)) 0

/-- Parse the body of a JavaScript numeric literal (no sign): decimal
integer, decimal fraction, or `Infinity`. -/
def parsePosNum (cs : List Char) : JsNum :=
  if cs = "Infinity".toList then JsNum.inf
  else
    let a := cs.takeWhile isDigitCh
    let rest := cs.drop a.length
    match rest with
    | [] => if a = [] then JsNum.nan else JsNum.fin (digitsVal a)
    | '.' :: b =>
        if b.all isDigitCh ∧ (a ≠ [] ∨ b ≠ []) then
          JsNum.fin ((digitsVal a : ℚ) + (digitsVal b : ℚ) / (10 : ℚ) ^ b.length)
        else JsNum.nan
    | _ => JsNum.nan

/-- Negation on `JsNum`. -/
def jsNeg : JsNum → JsNum
  | JsNum.fin q => JsNum.fin (-q)
  | JsNum.nan => JsNum.nan
  | JsNum.inf => JsNum.ninf
  | JsNum.ninf => JsNum.inf

/-- JavaScript `Number(string)`: trimmed empty string is `0`; signed decimal
forms and `Infinity` convert; anything else is `NaN`.  (Hexadecimal and
exponent forms are not modelled; they do not occur in the payload.) -/
def strToNumber (s : String) : JsNum :=
  let t := ((s.toList.dropWhile isJsWs).reverse.dropWhile isJsWs).reverse
  match t with
  | [] => JsNum.fin 0
  | '+' :: r => parsePosNum r
  | '-' :: r => jsNeg (parsePosNum r)
  | r => parsePosNum r

/-- JavaScript `Number(v)` on a payload value: `null` converts to `0`,
`undefined` to `NaN`, booleans to `0`/`1`, strings via `strToNumber`. -/
def toNumber : Option Value → JsNum
  | none => JsNum.nan
  | some Value.vNull => JsNum.fin 0
  | some (Value.vBool true) => JsNum.fin 1
  | some (Value.vBool false) => JsNum.fin 0
  | some (Value.vNum q) => JsNum.fin q
  | some (Value.vStr s) => strToNumber s

/-- A data row: an association list from column name to cell value, as in
the JSON payload built by `to_js_rows`. -/
abbrev Row : Type := List (String × Value)

/-- JavaScript property access `r[c]`: `none` models `undefined`. -/
def rowGet : Row → String → Option Value
  | [], _ => none
  | e :: rest, c => if e.1 = c then some e.2 else rowGet rest c

/-- The filter state: an association list from column name to the list of
accepted string values (the JS object `filters` mapping field to a `Set`). -/
abbrev FilterState : Type := List (String × List String)

/-- JS object lookup `filters[x]`. -/
def fsLookup : FilterState → String → Option (List String)
  | [], _ => none
  | e :: rest, x => if e.1 = x then some e.2 else fsLookup rest x

/-- The check of one filter entry against one row, from the `keys.every`
body of `applyFilters` in `src/App.py`: a null or undefined value never
passes, otherwise membership of the string encoding in the accepted set
decides. -/
def entryPass (r : Row) (e : String × List String) : Bool :=
  match rowGet r e.1 with
  | none => false
  | some v =>
      if v = Value.vNull then false
      else decide (encodeJS (some v) ∈ e.2)

/-- The per-row predicate of `applyFilters`: every active filter entry must
pass. -/
def rowPass (fs : FilterState) (r : Row) : Bool :=
  fs.all (entryPass r)

/-- `applyFilters` from `src/App.py`: identity on an empty filter state,
otherwise keep the rows passing every active filter. -/
def applyFilters (rows : List Row) (fs : FilterState) : List Row :=
  if fs.isEmpty then rows else rows.filter (rowPass fs)

/-- Remove a key from the filter state (JS `delete filters[x]`). -/
def eraseKey (fs : FilterState) (x : String) : FilterState :=
  fs.filter (fun e => e.1 != x)

/-- Replace the value stored at a key (in-place mutation of `filters[x]`). -/
def setKey (fs : FilterState) (x : String) (s : List String) : FilterState :=
  fs.map (fun e => if e.1 = x then (x, s) else e)

/-- The chart `click` handler of `src/App.py`: create the set on first use,
toggle the clicked label, and delete the key when the set becomes empty. -/
def toggleValue (fs : FilterState) (x v : String) : FilterState :=
  match fsLookup fs x with
  | none => fs ++ [(x, [v])]
  | some s =>
      if v ∈ s then
        let s' := s.erase v
        if s' = [] then eraseKey fs x else setKey fs x s'
      else setKey fs x (s ++ [v])

/-- Well-formedness maintained by the UI for the filter state: keys are
distinct (it is a JS object) and each accepted set is a non-empty set
(entries are deleted rather than left empty; a JS `Set` has no
duplicates). -/
def FSWF (fs : FilterState) : Prop :=
  (fs.map Prod.fst).Nodup ∧ ∀ e ∈ fs, e.2 ≠ [] ∧ e.2.Nodup

instance : DecidablePred FSWF := fun _ => by unfold FSWF; infer_instance

/-- The string encoding of row `r`'s value in column `x`, as used for group
keys (`String(r[x])`). -/
def keyOf (r : Row) (x : String) : String := encodeJS (rowGet r x)

/-- Group labels in first-occurrence order: `aggregate` creates a group for
every row's key, valid measure or not. -/
def keysOf (rows : List Row) (x : String) : List String :=
  (rows.map (fun r => keyOf r x)).dedup

/-- The list (in row order) of valid numeric measure values of group `k`:
`aggregate` pushes `Number(r[y])` only when it is not `NaN`. -/
def groupVals (rows : List Row) (x y k : String) : List JsNum :=
  rows.filterMap (fun r =>
    if keyOf r x = k then
      (let n := toNumber (rowGet r y); if n.isNaN then none else some n)
    else none)

/-- JS `arr.reduce((a,b)=>a+b,0)`. -/
def jsSum (arr : List JsNum) : JsNum := arr.foldl JsNum.add (JsNum.fin 0)

/-- The per-group value computed by `aggregate` for a (lower-cased,
defaulted) aggregation kind. -/
def aggValue (agg : String) (arr : List JsNum) : JsNum :=
  if agg = "avg" then JsNum.div (jsSum arr) (JsNum.fin arr.length)
  else if agg = "min" then arr.foldl JsNum.min2 JsNum.inf
  else if agg = "max" then arr.foldl JsNum.max2 JsNum.ninf
  else if agg = "count" then JsNum.fin arr.length
  else if agg = "distinct" then JsNum.fin arr.dedup.length
  else jsSum arr

/-- `(agg || "sum").toLowerCase()` at the top of `aggregate`. -/
def normAgg (agg : String) : String :=
  lowerStr (if agg = "" then "sum" else agg)

/-- The unsorted `(label, value)` pairs of `aggregate`, one per group, in
first-occurrence order of the labels. -/
def aggPairs (rows : List Row) (x y agg : String) : List (String × JsNum) :=
  (keysOf rows x).map (fun k => (k, aggValue (normAgg agg) (groupVals rows x y k)))

/-- `aggregate` from `src/App.py`: group rows by the string encoding of the
`x` column, aggregate the valid numeric `y` values of each group, and sort
the result by group label (`out.sort((a,b)=> (a.x > b.x ? 1 : -1))`, a
strict comparison on the distinct labels). -/
def aggregate (rows : List Row) (x y agg : String) : List (String × JsNum) :=
  (aggPairs rows x y agg).mergeSort (fun p q => strLe p.1 q.1)

/-- JS `toFixed(2)` body on a non-negative rational: round half away from
zero to two decimals. -/
def toFixed2NN (q : ℚ) : String :=
  let n := (q * 100 + 1 / 2).floor.toNat
  natStr (n / 100) ++ "." ++ String.mk (padZeros 2 (natChars (n % 100)))

/-- JS `toFixed(2)` on a finite number (the sign is peeled first, as in the
ECMA algorithm). -/
def toFixed2Q (q : ℚ) : String :=
  if q < 0 then "-" ++ toFixed2NN (-q) else toFixed2NN q

/-- JS `v.toFixed(2)` on any number. -/
def toFixed2 : JsNum → String
  | JsNum.fin q => toFixed2Q q
  | JsNum.nan => "NaN"
  | JsNum.inf => "Infinity"
  | JsNum.ninf => "-Infinity"

/-- Insert thousand separators into a reversed digit list. -/
def groupRev : List Char → List Char
  | a :: b :: c :: d :: rest => a :: b :: c :: ',' :: groupRev (d :: rest)
  | l => l

/-- `Intl.NumberFormat().format` on a finite rational (en-US defaults:
grouped integer part, at most three fraction digits, half away from
zero). -/
def intlFmtQ (q : ℚ) : String :=
  let a := |q|
  let scaled := (a * 1000 + 1 / 2).floor.toNat
  let ip := scaled / 1000
  let fp := scaled % 1000
  let frac :=
    if fp = 0 then ""
    else "." ++ String.mk ((padZeros 3 (natChars fp)).reverse.dropWhile (fun c => c = '0')).reverse
  (if q < 0 then "-" else "") ++ String.mk (groupRev (natChars ip).reverse).reverse ++ frac

/-- `Intl.NumberFormat().format` on any number. -/
def intlFmt : JsNum → String
  | JsNum.fin q => intlFmtQ q
  | JsNum.nan => "NaN"
  | JsNum.inf => "∞"
  | JsNum.ninf => "-∞"

/-- `numberFormat` from `src/App.py`: `NaN` renders as `"N/A"`, large
magnitudes as `B`/`M`/`K` suffixed fixed-point numbers, the rest through
`Intl.NumberFormat`. -/
def numberFormat (v : JsNum) : String :=
  if v.isNaN then "N/A"
  else if (v.abs).ge (JsNum.fin 1000000000) then toFixed2 (v.div (JsNum.fin 1000000000)) ++ "B"
  else if (v.abs).ge (JsNum.fin 1000000) then toFixed2 (v.div (JsNum.fin 1000000)) ++ "M"
  else if (v.abs).ge (JsNum.fin 1000) then toFixed2 (v.div (JsNum.fin 1000)) ++ "K"
  else intlFmt v

/-- A KPI widget declaration of the dashboard spec: title, aggregation
kind, target column. -/
structure KPISpec where
  title : String
  agg : String
  col : String
deriving DecidableEq

/-- The valid numeric values of a column over the projected rows, as
collected in `buildKPIs`: `rows.map(r=>Number(r[k.field])).filter(v=>!isNaN(v))`. -/
def kpiNums (rows : List Row) (col : String) : List JsNum :=
  rows.filterMap (fun r =>
    let n := toNumber (rowGet r col)
    if n.isNaN then none else some n)

/-- The scalar aggregate computed in `buildKPIs` (exact string match on the
kind, defaulting to sum). -/
def kpiAgg (agg : String) (nums : List JsNum) : JsNum :=
  if agg = "avg" then JsNum.div (jsSum nums) (JsNum.fin nums.length)
  else if agg = "min" then nums.foldl JsNum.min2 JsNum.inf
  else if agg = "max" then nums.foldl JsNum.max2 JsNum.ninf
  else if agg = "count" then JsNum.fin nums.length
  else if agg = "distinct" then JsNum.fin nums.dedup.length
  else jsSum nums

/-- The rendered value of one KPI card in `buildKPIs`: `"N/A"` unless the
column resolves and has at least one valid numeric value, in which case the
aggregate is formatted through `numberFormat`. -/
def renderKPI (cols : List String) (rows : List Row) (k : KPISpec) : String :=
  if cols.contains k.col then
    let nums := kpiNums rows k.col
    if nums.isEmpty then "N/A" else numberFormat (kpiAgg k.agg nums)
  else "N/A"

/-- The rendered values of all KPI cards, one per declared KPI. -/
def buildKPIs (cols : List String) (rows : List Row) (ks : List KPISpec) : List String :=
  ks.map (renderKPI cols rows)

/-- JSON string escaping of one character, as performed by
`JSON.stringify` on string values. -/
def jsonEscChar (c : Char) : List Char :=
  if c = '"' then ['\\', '"']
  else if c = '\\' then ['\\', '\\']
  else if c = '\n' then ['\\', 'n']
  else if c = '\r' then ['\\', 'r']
  else if c = '\t' then ['\\', 't']
  else if c = '\x08' then ['\\', 'b']
  else if c = '\x0c' then ['\\', 'f']
  else if c.val < 32 then
    ['\\', 'u', '0', '0',
     Char.ofNat (if c.val / 16 < 10 then 48 + c.val / 16 else 87 + c.val / 16).toNat,
     Char.ofNat (if c.val % 16 < 10 then 48 + c.val % 16 else 87 + c.val % 16).toNat]
  else [c]

/-- JSON string escaping of a character list. -/
def jsonEscList (cs : List Char) : List Char := cs.flatMap jsonEscChar

/-- `JSON.stringify` on a payload value, after the `?? ""` defaulting of
`toCSV`: strings (and the empty string standing for null/undefined) are
quoted and escaped, numbers and booleans print bare. -/
def csvField (v : Option Value) : String :=
  match v with
  | none => String.mk ('"' :: jsonEscList [] ++ ['"'])
  | some Value.vNull => String.mk ('"' :: jsonEscList [] ++ ['"'])
  | some (Value.vStr s) => String.mk ('"' :: jsonEscList s.toList ++ ['"'])
  | some (Value.vNum q) => numStr q
  | some (Value.vBool true) => "true"
  | some (Value.vBool false) => "false"

/-- JS `Array.prototype.join`. -/
def joinStr (sep : String) : List String → String
  | [] => ""
  | x :: xs => xs.foldl (fun a b => a ++ sep ++ b) x

/-- One CSV line of `toCSV`: the row's fields, `JSON.stringify`-encoded and
comma-joined, in declared column order. -/
def csvLine (cols : List String) (r : Row) : String :=
  joinStr "," (cols.map (fun c => csvField (rowGet r c)))

/-- `toCSV` from `src/App.py`: the comma-joined header, a newline, and the
newline-joined encoded rows. -/
def toCSV (cols : List String) (rows : List Row) : String :=
  joinStr "," cols ++ "\n" ++ joinStr "\n" (rows.map (csvLine cols))

/-- First pass of the fence stripping in `extract_json`
(`re.sub(r"` ` `(json)?", "")`): delete every triple-backtick, together
with an immediately following `json`, scanning left to right. -/
def stripFencesJson : List Char → List Char
  | '`' :: '`' :: '`' :: rest =>
      if rest.take 4 = ['j', 's', 'o', 'n'] then stripFencesJson (rest.drop 4)
      else stripFencesJson rest
  | c :: rest => c :: stripFencesJson rest
  | [] => []
termination_by cs => cs.length
decreasing_by
  all_goals simp only [List.length_cons, List.length_drop]
  all_goals omega

/-- Second pass (`re.sub(r"` ` `", "")`): delete triple-backticks that the
first pass may have brought together. -/
def stripFencesPlain : List Char → List Char
  | '`' :: '`' :: '`' :: rest => stripFencesPlain rest
  | c :: rest => c :: stripFencesPlain rest
  | [] => []
termination_by cs => cs.length
decreasing_by
  all_goals simp only [List.length_cons, List.length_drop]
  all_goals omega

/-- Python `\s` for the patterns used in `extract_json`. -/
def isPyWs (c : Char) : Bool :=
  c = ' ' || c = '\t' || c = '\n' || c = '\r' || c = '\x0b' || c = '\x0c'

/-- Python `str.strip()`. -/
def pyStrip (cs : List Char) : List Char :=
  ((cs.dropWhile isPyWs).reverse.dropWhile isPyWs).reverse

/-- The span matched by the greedy `re.search` in `extract_json`: from the
first `\x7b` through the last `\x7d`, if such a span exists. -/
def braceSpan (cs : List Char) : Option (List Char) :=
  let t := cs.dropWhile (fun c => c ≠ '{')
  let u := (t.reverse.dropWhile (fun c => c ≠ '}')).reverse
  if u.isEmpty then none else some u

/-- The trailing-comma repair `re.sub(r",(\s*[\x7d\x5d])", r"\1")`: delete
a comma standing (up to whitespace) before a closing brace or bracket,
scanning left to right past each replacement. -/
def commaRepair : List Char → List Char
  | [] => []
  | ',' :: rest =>
      let ws := rest.takeWhile isPyWs
      match h : rest.dropWhile isPyWs with
      | b :: tail =>
          if b = '}' ∨ b = ']' then ws ++ b :: commaRepair tail
          else ',' :: commaRepair rest
      | [] => ',' :: commaRepair rest
  | c :: rest => c :: commaRepair rest
termination_by cs => cs.length
decreasing_by
  all_goals simp only [List.length_cons]
  · have h1 : (rest.dropWhile isPyWs).length ≤ rest.length :=
      (List.dropWhile_sublist isPyWs).length_le
    rw [h] at h1
    simp only [List.length_cons] at h1
    omega
  all_goals omega

/-- The body of `extract_json` on a non-empty input: strip code fences,
take the greedy first-`\x7b`-to-last-`\x7d` span, repair trailing commas
and strip whitespace; `"\x7b\x7d"` when there is no span. -/
def extractCore (cs : List Char) : String :=
  match braceSpan (stripFencesPlain (stripFencesJson cs)) with
  | none => "\x7b\x7d"
  | some u => String.mk (pyStrip (commaRepair u))

/-- `extract_json` from `src/App.py`. -/
def extract_json (s : String) : String :=
  if s = "" then "\x7b\x7d" else extractCore s.toList

/-- Pandas `astype(str)` on one cell, as used by `apply_filters` in
`src/bi_utils.py`: missing values print as `"nan"`, booleans as
`"True"`/`"False"`. -/
def pyStr : Option Value → String
  | none => "nan"
  | some Value.vNull => "nan"
  | some (Value.vStr s) => s
  | some (Value.vBool true) => "True"
  | some (Value.vBool false) => "False"
  | some (Value.vNum q) => numStr q

/-- One iteration of the `apply_filters` loop: the entry acts only when its
column is among the dataframe's columns and its accepted collection is
truthy (non-empty). -/
def pyStep (cols : List String) (acc : List Row) (e : String × List String) : List Row :=
  if e.1 ∈ cols ∧ e.2 ≠ [] then
    acc.filter (fun r => decide (pyStr (rowGet r e.1) ∈ e.2))
  else acc

/-- `apply_filters` from `src/bi_utils.py`: fold the filter entries over the
dataframe rows in mapping order. -/
def pyApplyFilters (cols : List String) (rows : List Row)
    (fs : List (String × List String)) : List Row :=
  fs.foldl (pyStep cols) rows

/-- The three-row Region/Sales dataset of the specification's click
scenario. -/
def demoRows : List Row :=
  [[("Region", Value.vStr "East"), ("Sales", Value.vNum 100)],
   [("Region", Value.vStr "West"), ("Sales", Value.vNum 200)],
   [("Region", Value.vStr "East"), ("Sales", Value.vNum 50)]]

/-- `applyFilters` always equals a plain filter by `rowPass` (the empty
short-circuit returns all rows, and so does filtering by a vacuous
predicate). -/
theorem applyFilters_eq_filter (rows : List Row) (fs : FilterState) :
    applyFilters rows fs = rows.filter (rowPass fs) := by
  cases fs with
  | nil =>
      simp only [applyFilters, List.isEmpty_nil, if_true]
      exact (List.filter_eq_self.mpr (fun a _ => rfl)).symm
  | cons e rest => rfl

/-- The specification's row predicate: for every column present in the
filter state, the row's value is present, non-null, and its string encoding
is in the accepted set. -/
def filterSpecPass (fs : FilterState) (r : Row) : Prop :=
  ∀ c s, (c, s) ∈ fs → ∃ v, rowGet r c = some v ∧ v ≠ Value.vNull ∧ encodeJS (some v) ∈ s

theorem entryPass_iff (r : Row) (c : String) (s : List String) :
    entryPass r (c, s) = true ↔
      ∃ v, rowGet r c = some v ∧ v ≠ Value.vNull ∧ encodeJS (some v) ∈ s := by
  unfold entryPass
  cases hv : rowGet r c with
  | none => simp
  | some v =>
      by_cases hn : v = Value.vNull
      · simp [hn]
      · simp [hn]

theorem rowPass_iff_spec (fs : FilterState) (r : Row) :
    rowPass fs r = true ↔ filterSpecPass fs r := by
  rw [rowPass, List.all_eq_true]
  constructor
  · intro h c s hcs
    exact (entryPass_iff r c s).mp (h (c, s) hcs)
  · intro h e he
    exact (entryPass_iff r e.1 e.2).mpr (h e.1 e.2 (by simpa using he))

/-- C1.  `applyFilters` returns exactly the rows passing every active
filter: a row passes iff each constrained column holds a non-null value
whose string encoding is accepted; the empty filter state is the
identity projection. -/
theorem applyFilters_exact (rows : List Row) (fs : FilterState) :
    applyFilters rows fs = rows.filter (rowPass fs) ∧
    (∀ r, rowPass fs r = true ↔ filterSpecPass fs r) ∧
    applyFilters rows [] = rows := by
  exact ⟨applyFilters_eq_filter rows fs, fun r => rowPass_iff_spec fs r, rfl⟩

theorem applyFilters_exact_witness :
    applyFilters demoRows [("Region", ["East"])] =
      demoRows.filter (rowPass [("Region", ["East"])]) :=
  (applyFilters_exact demoRows [("Region", ["East"])]).1

theorem fsLookup_eq_none_iff (fs : FilterState) (x : String) :
    fsLookup fs x = none ↔ ∀ e ∈ fs, e.1 ≠ x := by
  induction fs with
  | nil => simp [fsLookup]
  | cons e rest ih =>
      by_cases h : e.1 = x
      · simp [fsLookup, h]
      · simp [fsLookup, h, ih]

theorem eraseKey_of_none {fs : FilterState} {x : String}
    (h : fsLookup fs x = none) : eraseKey fs x = fs :=
  List.filter_eq_self.mpr (fun e he => by
    simpa using (fsLookup_eq_none_iff fs x).mp h e he)

theorem fsLookup_eraseKey_self (fs : FilterState) (x : String) :
    fsLookup (eraseKey fs x) x = none := by
  rw [fsLookup_eq_none_iff]
  intro e he
  have := List.of_mem_filter he
  simpa using this

theorem fsLookup_append_right {fs : FilterState} {x : String}
    (gs : FilterState) (h : fsLookup fs x = none) :
    fsLookup (fs ++ gs) x = fsLookup gs x := by
  induction fs with
  | nil => rfl
  | cons e rest ih =>
      by_cases he : e.1 = x
      · rw [fsLookup, if_pos he] at h; exact absurd h (by simp)
      · rw [fsLookup, if_neg he] at h
        show fsLookup (e :: (rest ++ gs)) x = fsLookup gs x
        rw [fsLookup, if_neg he]
        exact ih h

theorem fsLookup_setKey_self {fs : FilterState} {x : String} {s : List String}
    (t : List String) (h : fsLookup fs x = some s) :
    fsLookup (setKey fs x t) x = some t := by
  induction fs with
  | nil => exact absurd h (by simp [fsLookup])
  | cons e rest ih =>
      by_cases he : e.1 = x
      · show fsLookup ((if e.1 = x then (x, t) else e) :: setKey rest x t) x = some t
        rw [if_pos he, fsLookup, if_pos rfl]
      · rw [fsLookup, if_neg he] at h
        show fsLookup ((if e.1 = x then (x, t) else e) :: setKey rest x t) x = some t
        rw [if_neg he, fsLookup, if_neg he]
        exact ih h

theorem setKey_setKey (fs : FilterState) (x : String) (s t : List String) :
    setKey (setKey fs x s) x t = setKey fs x t := by
  induction fs with
  | nil => rfl
  | cons e rest ih =>
      show (if (if e.1 = x then (x, s) else e).1 = x then (x, t)
              else (if e.1 = x then (x, s) else e)) :: setKey (setKey rest x s) x t
          = (if e.1 = x then (x, t) else e) :: setKey rest x t
      by_cases he : e.1 = x <;> simp [he, ih]

theorem setKey_eq_self {fs : FilterState} {x : String} {s : List String}
    (h : ∀ e ∈ fs, e.1 = x → e.2 = s) : setKey fs x s = fs := by
  induction fs with
  | nil => rfl
  | cons e rest ih =>
      show (if e.1 = x then (x, s) else e) :: setKey rest x s = e :: rest
      rw [ih (fun f hf => h f (List.mem_cons_of_mem e hf))]
      by_cases he : e.1 = x
      · rw [if_pos he]
        have : e.2 = s := h e (List.mem_cons_self e rest) he
        rw [← he, ← this]
      · rw [if_neg he]

theorem fsLookup_mem {fs : FilterState} {x : String} {s : List String}
    (h : fsLookup fs x = some s) : (x, s) ∈ fs := by
  induction fs with
  | nil => exact absurd h (by simp [fsLookup])
  | cons e rest ih =>
      by_cases he : e.1 = x
      · rw [fsLookup, if_pos he] at h
        have h2 : e.2 = s := by injection h
        have h3 : (x, s) = e := by rw [← he, ← h2]
        rw [h3]
        exact List.mem_cons_self e rest
      · rw [fsLookup, if_neg he] at h
        exact List.mem_cons_of_mem e (ih h)

theorem fsLookup_unique {fs : FilterState} {x : String} {s : List String}
    (hnd : (fs.map Prod.fst).Nodup) (h : fsLookup fs x = some s) :
    ∀ e ∈ fs, e.1 = x → e.2 = s := by
  induction fs with
  | nil => intro e he; exact absurd he (by simp)
  | cons e rest ih =>
      rw [List.map_cons, List.nodup_cons] at hnd
      intro f hf hfx
      by_cases he : e.1 = x
      · rw [fsLookup, if_pos he] at h
        rcases List.mem_cons.mp hf with hf' | hf'
        · rw [hf']; injection h
        · refine absurd (List.mem_map_of_mem Prod.fst hf') ?_
          rw [hfx, ← he]
          exact hnd.1
      · rw [fsLookup, if_neg he] at h
        rcases List.mem_cons.mp hf with hf' | hf'
        · exact absurd (hf' ▸ hfx) he
        · exact ih hnd.2 h f hf' hfx

theorem erase_eq_nil_of_mem {s : List String} {v : String}
    (hv : v ∈ s) (h0 : s.erase v = []) : s = [v] := by
  cases s with
  | nil => exact absurd hv (by simp)
  | cons a as =>
      by_cases ha : a = v
      · subst ha
        rw [List.erase_cons_head] at h0
        rw [h0]
      · rw [List.erase_cons_tail (by simpa using ha)] at h0
        exact absurd h0 (by simp)

theorem rowPass_cons (e : String × List String) (fs : FilterState) (r : Row) :
    rowPass (e :: fs) r = (entryPass r e && rowPass fs r) :=
  List.all_cons

theorem rowPass_append (fs gs : FilterState) (r : Row) :
    rowPass (fs ++ gs) r = (rowPass fs r && rowPass gs r) :=
  List.all_append

/-- `entryPass` only looks at the membership structure of the accepted
set. -/
theorem entryPass_congr {s t : List String} (x : String) (r : Row)
    (hmem : ∀ w, w ∈ t ↔ w ∈ s) : entryPass r (x, t) = entryPass r (x, s) := by
  unfold entryPass
  cases rowGet r x with
  | none => rfl
  | some v =>
      by_cases hn : v = Value.vNull
      · simp [hn]
      · simp only [if_neg hn]
        exact decide_eq_decide.mpr (hmem _)

theorem rowPass_erase_decomp {fs : FilterState} {x : String} {s : List String}
    (hnd : (fs.map Prod.fst).Nodup) (h : fsLookup fs x = some s) (r : Row) :
    rowPass fs r = (rowPass (eraseKey fs x) r && rowPass [(x, s)] r) := by
  induction fs with
  | nil => exact absurd h (by simp [fsLookup])
  | cons e rest ih =>
      rw [List.map_cons, List.nodup_cons] at hnd
      by_cases he : e.1 = x
      · rw [fsLookup, if_pos he] at h
        have h2 : e.2 = s := by injection h
        have hrest : fsLookup rest x = none := by
          rw [fsLookup_eq_none_iff]
          intro f hf hfx
          apply hnd.1
          rw [he, ← hfx]
          exact List.mem_map_of_mem Prod.fst hf
        have her : eraseKey (e :: rest) x = rest := by
          show List.filter _ (e :: rest) = rest
          rw [List.filter_cons_of_neg (by simpa using he)]
          exact eraseKey_of_none hrest
        have hes : (x, s) = e := by rw [← he, ← h2]
        rw [her, rowPass_cons, ← hes, rowPass_cons]
        rw [show rowPass ([] : FilterState) r = true from rfl, Bool.and_true, Bool.and_comm]
      · rw [fsLookup, if_neg he] at h
        have her : eraseKey (e :: rest) x = e :: eraseKey rest x := by
          show List.filter _ (e :: rest) = _
          rw [List.filter_cons_of_pos (by simpa using he)]
          rfl
        rw [her, rowPass_cons, rowPass_cons, ih hnd.2 h, Bool.and_assoc]

theorem rowPass_setKey {fs : FilterState} {x : String} {s t : List String} (r : Row)
    (hmem : ∀ w, w ∈ t ↔ w ∈ s) (huniq : ∀ e ∈ fs, e.1 = x → e.2 = s) :
    rowPass (setKey fs x t) r = rowPass fs r := by
  induction fs with
  | nil => rfl
  | cons e rest ih =>
      show rowPass ((if e.1 = x then (x, t) else e) :: setKey rest x t) r = _
      rw [rowPass_cons, rowPass_cons,
        ih (fun f hf => huniq f (List.mem_cons_of_mem e hf))]
      by_cases he : e.1 = x
      · rw [if_pos he]
        have h2 : e.2 = s := huniq e (List.mem_cons_self e rest) he
        have hes : (x, s) = e := by rw [← he, ← h2]
        rw [← hes, entryPass_congr x r hmem]
      · rw [if_neg he]

/-- Reduction of `toggleValue` when the column has no active filter. -/
theorem toggleValue_none {fs : FilterState} {x : String} (v : String)
    (h : fsLookup fs x = none) : toggleValue fs x v = fs ++ [(x, [v])] := by
  rw [toggleValue, h]

/-- Reduction of `toggleValue` when the column has an active filter. -/
theorem toggleValue_some {fs : FilterState} {x : String} {s : List String} (v : String)
    (h : fsLookup fs x = some s) :
    toggleValue fs x v =
      (if v ∈ s then
        (if s.erase v = [] then eraseKey fs x else setKey fs x (s.erase v))
       else setKey fs x (s ++ [v])) := by
  rw [toggleValue, h]

/-- Toggling the same value twice leaves the row predicate unchanged on
every well-formed filter state. -/
theorem togglePair_rowPass (fs : FilterState) (x v : String) (r : Row)
    (hwf : FSWF fs) :
    rowPass (toggleValue (toggleValue fs x v) x v) r = rowPass fs r := by
  obtain ⟨hnd, hent⟩ := hwf
  cases h : fsLookup fs x with
  | none =>
      have e1 : toggleValue fs x v = fs ++ [(x, [v])] := toggleValue_none v h
      have e2 : fsLookup (fs ++ [(x, [v])]) x = some [v] := by
        rw [fsLookup_append_right _ h]
        simp [fsLookup]
      have e3 : toggleValue (fs ++ [(x, [v])]) x v = fs := by
        rw [toggleValue_some v e2, if_pos (List.mem_singleton_self v),
          List.erase_cons_head, if_pos rfl]
        show List.filter _ (fs ++ [(x, [v])]) = fs
        rw [List.filter_append]
        have h4 : List.filter (fun e => e.1 != x) [(x, [v])] = [] := by simp
        rw [h4, List.append_nil]
        exact eraseKey_of_none h
      rw [e1, e3]
  | some s =>
      have hsmem := fsLookup_mem h
      have hs_ne : s ≠ [] := (hent _ hsmem).1
      have hs_nd : s.Nodup := (hent _ hsmem).2
      by_cases hv : v ∈ s
      · by_cases h0 : s.erase v = []
        · have hsv : s = [v] := erase_eq_nil_of_mem hv h0
          have e1 : toggleValue fs x v = eraseKey fs x := by
            rw [toggleValue_some v h, if_pos hv, if_pos h0]
          have e2 : fsLookup (eraseKey fs x) x = none := fsLookup_eraseKey_self fs x
          have e3 : toggleValue (eraseKey fs x) x v = eraseKey fs x ++ [(x, [v])] :=
            toggleValue_none v e2
          rw [e1, e3, rowPass_append, rowPass_erase_decomp hnd h r, hsv]
        · have e1 : toggleValue fs x v = setKey fs x (s.erase v) := by
            rw [toggleValue_some v h, if_pos hv, if_neg h0]
          have e2 : fsLookup (setKey fs x (s.erase v)) x = some (s.erase v) :=
            fsLookup_setKey_self _ h
          have hv2 : v ∉ s.erase v := hs_nd.not_mem_erase
          have e3 : toggleValue (setKey fs x (s.erase v)) x v =
              setKey (setKey fs x (s.erase v)) x (s.erase v ++ [v]) := by
            rw [toggleValue_some v e2, if_neg hv2]
          rw [e1, e3, setKey_setKey]
          refine rowPass_setKey r ?_ (fsLookup_unique hnd h)
          intro w
          by_cases hw : w = v
          · subst hw
            simp [hv]
          · rw [List.mem_append]
            simp only [List.mem_singleton, hw, or_false]
            exact List.mem_erase_of_ne hw
      · have e1 : toggleValue fs x v = setKey fs x (s ++ [v]) := by
          rw [toggleValue_some v h, if_neg hv]
        have e2 : fsLookup (setKey fs x (s ++ [v])) x = some (s ++ [v]) :=
          fsLookup_setKey_self _ h
        have hv2 : v ∈ s ++ [v] := List.mem_append_right s (List.mem_singleton_self v)
        have h4 : (s ++ [v]).erase v = s := by
          rw [List.erase_append_right _ hv, List.erase_cons_head, List.append_nil]
        have e3 : toggleValue (setKey fs x (s ++ [v])) x v =
            setKey (setKey fs x (s ++ [v])) x s := by
          rw [toggleValue_some v e2, if_pos hv2, h4, if_neg hs_ne]
        rw [e1, e3, setKey_setKey, setKey_eq_self (fsLookup_unique hnd h)]

/-- C3.  A chart-click toggle performed twice on the same value restores
the projection on every well-formed filter state; on the three-row
Region/Sales dataset, clicking "East" once filters to the two East rows
and clicking it again restores all three. -/
theorem togglePair_identity :
    (∀ (rows : List Row) (fs : FilterState) (x v : String), FSWF fs →
      applyFilters rows (toggleValue (toggleValue fs x v) x v) = applyFilters rows fs) ∧
    toggleValue [] "Region" "East" = [("Region", ["East"])] ∧
    applyFilters demoRows (toggleValue [] "Region" "East") =
      [[("Region", Value.vStr "East"), ("Sales", Value.vNum 100)],
       [("Region", Value.vStr "East"), ("Sales", Value.vNum 50)]] ∧
    toggleValue (toggleValue [] "Region" "East") "Region" "East" = [] ∧
    applyFilters demoRows
      (toggleValue (toggleValue [] "Region" "East") "Region" "East") = demoRows := by
  refine ⟨?_, by decide, by decide, by decide, by decide⟩
  intro rows fs x v hwf
  rw [applyFilters_eq_filter, applyFilters_eq_filter]
  exact List.filter_congr (fun r _ => togglePair_rowPass fs x v r hwf)

theorem togglePair_identity_witness :
    applyFilters demoRows
        (toggleValue (toggleValue [("Sales", ["100"])] "Region" "East") "Region" "East") =
      applyFilters demoRows [("Sales", ["100"])] :=
  togglePair_identity.1 demoRows [("Sales", ["100"])] "Region" "East" (by decide)

theorem jsAdd_comm (a b : JsNum) : a.add b = b.add a := by
  cases a <;> cases b <;> simp [JsNum.add, add_comm]

theorem jsAdd_assoc (a b c : JsNum) : (a.add b).add c = a.add (b.add c) := by
  cases a <;> cases b <;> cases c <;> simp [JsNum.add, add_assoc]

theorem jsMin_comm (a b : JsNum) : a.min2 b = b.min2 a := by
  cases a <;> cases b <;> simp [JsNum.min2, min_comm]

theorem jsMin_assoc (a b c : JsNum) : (a.min2 b).min2 c = a.min2 (b.min2 c) := by
  cases a <;> cases b <;> cases c <;> simp [JsNum.min2, min_assoc]

theorem jsMax_comm (a b : JsNum) : a.max2 b = b.max2 a := by
  cases a <;> cases b <;> simp [JsNum.max2, max_comm]

theorem jsMax_assoc (a b c : JsNum) : (a.max2 b).max2 c = a.max2 (b.max2 c) := by
  cases a <;> cases b <;> cases c <;> simp [JsNum.max2, max_assoc]

theorem jsSum_perm {l1 l2 : List JsNum} (p : l1.Perm l2) : jsSum l1 = jsSum l2 :=
  p.foldl_eq' (fun x _ y _ z => by
    rw [jsAdd_assoc, jsAdd_assoc, jsAdd_comm x y]) _

theorem foldMin_perm {l1 l2 : List JsNum} (p : l1.Perm l2) :
    l1.foldl JsNum.min2 JsNum.inf = l2.foldl JsNum.min2 JsNum.inf :=
  p.foldl_eq' (fun x _ y _ z => by
    rw [jsMin_assoc, jsMin_assoc, jsMin_comm x y]) _

theorem foldMax_perm {l1 l2 : List JsNum} (p : l1.Perm l2) :
    l1.foldl JsNum.max2 JsNum.ninf = l2.foldl JsNum.max2 JsNum.ninf :=
  p.foldl_eq' (fun x _ y _ z => by
    rw [jsMax_assoc, jsMax_assoc, jsMax_comm x y]) _

theorem aggValue_perm (agg : String) {l1 l2 : List JsNum} (p : l1.Perm l2) :
    aggValue agg l1 = aggValue agg l2 := by
  unfold aggValue
  split_ifs
  · rw [jsSum_perm p, p.length_eq]
  · exact foldMin_perm p
  · exact foldMax_perm p
  · rw [p.length_eq]
  · rw [(p.dedup).length_eq]
  · exact jsSum_perm p

theorem keysOf_perm {rows rows' : List Row} (x : String) (p : rows.Perm rows') :
    (keysOf rows x).Perm (keysOf rows' x) :=
  (p.map _).dedup

theorem keysOf_nodup (rows : List Row) (x : String) : (keysOf rows x).Nodup :=
  List.nodup_dedup _

theorem groupVals_perm {rows rows' : List Row} (x y k : String) (p : rows.Perm rows') :
    (groupVals rows x y k).Perm (groupVals rows' x y k) :=
  p.filterMap _

theorem aggPairs_perm {rows rows' : List Row} (x y a : String) (p : rows.Perm rows') :
    (aggPairs rows x y a).Perm (aggPairs rows' x y a) := by
  unfold aggPairs
  have h1 : (keysOf rows x).map
        (fun k => (k, aggValue (normAgg a) (groupVals rows x y k))) =
      (keysOf rows x).map
        (fun k => (k, aggValue (normAgg a) (groupVals rows' x y k))) :=
    List.map_congr_left (fun k _ => by
      rw [aggValue_perm (normAgg a) (groupVals_perm x y k p)])
  rw [h1]
  exact (keysOf_perm x p).map _

theorem aggPairs_fst (rows : List Row) (x y a : String) :
    (aggPairs rows x y a).map Prod.fst = keysOf rows x := by
  unfold aggPairs
  rw [List.map_map]
  exact List.map_id _

theorem aggregate_perm_pairs (rows : List Row) (x y a : String) :
    (aggregate rows x y a).Perm (aggPairs rows x y a) :=
  List.mergeSort_perm _ _

theorem aggregate_fst_nodup (rows : List Row) (x y a : String) :
    ((aggregate rows x y a).map Prod.fst).Nodup := by
  have h1 := (aggregate_perm_pairs rows x y a).map Prod.fst
  rw [h1.nodup_iff, aggPairs_fst]
  exact keysOf_nodup rows x

theorem charListLe_cons (a b : Char) (as bs : List Char) :
    charListLe (a :: as) (b :: bs) = true ↔
      (a.toNat < b.toNat ∨ (a.toNat = b.toNat ∧ charListLe as bs = true)) := by
  simp only [charListLe]
  split_ifs with g1 g2
  · simp [g1]
  · constructor
    · intro h; exact absurd h (by simp)
    · intro h
      rcases h with h | h
      · exfalso; omega
      · exfalso; omega
  · constructor
    · intro h; exact Or.inr ⟨by omega, h⟩
    · intro h
      rcases h with h | h
      · exfalso; omega
      · exact h.2

theorem charListLt_cons (a b : Char) (as bs : List Char) :
    charListLt (a :: as) (b :: bs) = true ↔
      (a.toNat < b.toNat ∨ (a.toNat = b.toNat ∧ charListLt as bs = true)) := by
  simp only [charListLt]
  split_ifs with g1 g2
  · simp [g1]
  · constructor
    · intro h; exact absurd h (by simp)
    · intro h
      rcases h with h | h
      · exfalso; omega
      · exfalso; omega
  · constructor
    · intro h; exact Or.inr ⟨by omega, h⟩
    · intro h
      rcases h with h | h
      · exfalso; omega
      · exact h.2

theorem charListLe_trans : ∀ (as bs cs : List Char), charListLe as bs = true →
    charListLe bs cs = true → charListLe as cs = true := by
  intro as
  induction as with
  | nil => intro bs cs h1 h2; rfl
  | cons a as ih =>
      intro bs cs h1 h2
      cases bs with
      | nil => exact absurd h1 (by simp [charListLe])
      | cons b bs =>
          cases cs with
          | nil => exact absurd h2 (by simp [charListLe])
          | cons c cs =>
              rw [charListLe_cons] at h1 h2 ⊢
              rcases h1 with h1 | h1 <;> rcases h2 with h2 | h2
              · exact Or.inl (by omega)
              · exact Or.inl (by omega)
              · exact Or.inl (by omega)
              · exact Or.inr ⟨by omega, ih bs cs h1.2 h2.2⟩

theorem charListLe_total : ∀ (as bs : List Char),
    (charListLe as bs || charListLe bs as) = true := by
  intro as
  induction as with
  | nil => intro bs; rfl
  | cons a as ih =>
      intro bs
      cases bs with
      | nil => rfl
      | cons b bs =>
          rw [Bool.or_eq_true, charListLe_cons, charListLe_cons]
          rcases Nat.lt_trichotomy a.toNat b.toNat with h | h | h
          · exact Or.inl (Or.inl h)
          · have h2 := ih bs
            rw [Bool.or_eq_true] at h2
            rcases h2 with h2 | h2
            · exact Or.inl (Or.inr ⟨h, h2⟩)
            · exact Or.inr (Or.inr ⟨h.symm, h2⟩)
          · exact Or.inr (Or.inl h)

theorem charListLt_of_le_of_ne : ∀ (as bs : List Char), charListLe as bs = true →
    as ≠ bs → charListLt as bs = true := by
  intro as
  induction as with
  | nil =>
      intro bs h1 h2
      cases bs with
      | nil => exact absurd rfl h2
      | cons b bs => rfl
  | cons a as ih =>
      intro bs h1 h2
      cases bs with
      | nil => exact absurd h1 (by simp [charListLe])
      | cons b bs =>
          rw [charListLe_cons] at h1
          rw [charListLt_cons]
          rcases h1 with h1 | h1
          · exact Or.inl h1
          · have hab : a = b := Char.ext (UInt32.ext h1.1)
            refine Or.inr ⟨h1.1, ih bs h1.2 ?_⟩
            intro hx
            exact h2 (by rw [hab, hx])

theorem charListLt_asymm : ∀ (as bs : List Char), charListLt as bs = true →
    charListLt bs as = true → False := by
  intro as
  induction as with
  | nil =>
      intro bs h1 h2
      cases bs with
      | nil => exact absurd h1 (by simp [charListLt])
      | cons b bs => exact absurd h2 (by simp [charListLt])
  | cons a as ih =>
      intro bs h1 h2
      cases bs with
      | nil => exact absurd h1 (by simp [charListLt])
      | cons b bs =>
          rw [charListLt_cons] at h1 h2
          rcases h1 with h1 | h1 <;> rcases h2 with h2 | h2
          · omega
          · omega
          · omega
          · exact ih bs h1.2 h2.2

theorem aggregate_pairwise_le (rows : List Row) (x y a : String) :
    (aggregate rows x y a).Pairwise (fun p q => strLe p.1 q.1 = true) := by
  unfold aggregate
  exact List.sorted_mergeSort
    (fun (p q u : String × JsNum) (hpq : strLe p.1 q.1 = true)
        (hqu : strLe q.1 u.1 = true) => charListLe_trans _ _ _ hpq hqu)
    (fun (p q : String × JsNum) => charListLe_total p.1.toList q.1.toList)
    (aggPairs rows x y a)

theorem aggregate_pairwise_lt (rows : List Row) (x y a : String) :
    (aggregate rows x y a).Pairwise (fun p q => strLt p.1 q.1 = true) := by
  have hle := aggregate_pairwise_le rows x y a
  have hne : (aggregate rows x y a).Pairwise (fun p q => p.1 ≠ q.1) :=
    List.pairwise_map.mp (aggregate_fst_nodup rows x y a)
  exact (hle.and hne).imp (fun h =>
    charListLt_of_le_of_ne _ _ h.1 (fun hx => h.2 (String.ext hx)))

instance : IsAntisymm (String × JsNum) (fun p q => strLt p.1 q.1 = true) :=
  ⟨fun _ _ h1 h2 => absurd (charListLt_asymm _ _ h1 h2) not_false⟩

/-- Every group key of the input appears exactly once in `aggregate`'s
output, with the value aggregated from that group's valid measures. -/
theorem mem_aggregate {rows : List Row} {x k : String} (y a : String)
    (hk : k ∈ keysOf rows x) :
    (k, aggValue (normAgg a) (groupVals rows x y k)) ∈ aggregate rows x y a := by
  rw [(aggregate_perm_pairs rows x y a).mem_iff]
  unfold aggPairs
  exact List.mem_map_of_mem _ hk

/-- C9.  `aggregate` drops no row: group labels are distinct, every row's
string-encoded key (including `"null"` for null values and `"undefined"`
for missing columns) labels a group of the output. -/
theorem aggregate_null_groups (rows : List Row) (x y a : String) :
    ((aggregate rows x y a).map Prod.fst).Nodup ∧
    (∀ r ∈ rows, keyOf r x ∈ (aggregate rows x y a).map Prod.fst) ∧
    (∀ r ∈ rows, rowGet r x = some Value.vNull →
      "null" ∈ (aggregate rows x y a).map Prod.fst) ∧
    (∀ r ∈ rows, rowGet r x = none →
      "undefined" ∈ (aggregate rows x y a).map Prod.fst) := by
  have hmem : ∀ r ∈ rows, keyOf r x ∈ (aggregate rows x y a).map Prod.fst := by
    intro r hr
    have h1 : keyOf r x ∈ keysOf rows x := by
      unfold keysOf
      rw [List.mem_dedup]
      exact List.mem_map_of_mem _ hr
    rw [((aggregate_perm_pairs rows x y a).map Prod.fst).mem_iff, aggPairs_fst]
    exact h1
  refine ⟨aggregate_fst_nodup rows x y a, hmem, ?_, ?_⟩
  · intro r hr hnull
    have := hmem r hr
    rwa [keyOf, hnull] at this
  · intro r hr hnone
    have := hmem r hr
    rwa [keyOf, hnone] at this

theorem aggregate_null_groups_witness :
    "null" ∈ (aggregate [[("Region", Value.vNull), ("Sales", Value.vNum 5)]]
        "Region" "Sales" "sum").map Prod.fst :=
  (aggregate_null_groups [[("Region", Value.vNull), ("Sales", Value.vNum 5)]]
      "Region" "Sales" "sum").2.2.1
    [("Region", Value.vNull), ("Sales", Value.vNum 5)] (by decide) (by decide)

/-- C4 counterexample.  A group with zero valid numeric measures gets the
value `Infinity` under `min` (from `Math.min()` of an empty spread), not
the `NaN` sentinel, and `numberFormat` renders it `"InfinityB"`, not
`"N/A"` (symmetrically `-Infinity` and `"-InfinityB"` for `max`). -/
theorem aggregate_emptyGroup_counterexample :
    aggregate [[("Cat", Value.vStr "g"), ("Sales", Value.vStr "oops")]]
        "Cat" "Sales" "min" = [("g", JsNum.inf)] ∧
    aggregate [[("Cat", Value.vStr "g"), ("Sales", Value.vStr "oops")]]
        "Cat" "Sales" "max" = [("g", JsNum.ninf)] ∧
    JsNum.inf ≠ JsNum.nan ∧ JsNum.ninf ≠ JsNum.nan ∧
    numberFormat JsNum.inf = "InfinityB" ∧
    numberFormat JsNum.ninf = "-InfinityB" ∧
    ("InfinityB" : String) ≠ "N/A" := by
  have hp1 : aggPairs [[("Cat", Value.vStr "g"), ("Sales", Value.vStr "oops")]]
      "Cat" "Sales" "min" = [("g", JsNum.inf)] := by decide
  have hp2 : aggPairs [[("Cat", Value.vStr "g"), ("Sales", Value.vStr "oops")]]
      "Cat" "Sales" "max" = [("g", JsNum.ninf)] := by decide
  have e1 : aggregate [[("Cat", Value.vStr "g"), ("Sales", Value.vStr "oops")]]
      "Cat" "Sales" "min" = [("g", JsNum.inf)] := by
    unfold aggregate
    rw [hp1, List.mergeSort_singleton]
  have e2 : aggregate [[("Cat", Value.vStr "g"), ("Sales", Value.vStr "oops")]]
      "Cat" "Sales" "max" = [("g", JsNum.ninf)] := by
    unfold aggregate
    rw [hp2, List.mergeSort_singleton]
  refine ⟨e1, e2, by decide, by decide, rfl, rfl, by decide⟩

/-- C4 (amended).  For a group with zero valid numeric measures,
`aggregate` emits `0` under `sum`, `count` and `distinct`, the `NaN`
sentinel under `avg` (which `numberFormat` surfaces as `"N/A"`), and
`Infinity` / `-Infinity` under `min` / `max` (which `numberFormat`
surfaces as `"InfinityB"` / `"-InfinityB"`, not `"N/A"`). -/
theorem aggregate_emptyGroup_values (rows : List Row) (x y k : String)
    (hk : k ∈ keysOf rows x) (h0 : groupVals rows x y k = []) :
    (k, JsNum.fin 0) ∈ aggregate rows x y "sum" ∧
    (k, JsNum.fin 0) ∈ aggregate rows x y "count" ∧
    (k, JsNum.fin 0) ∈ aggregate rows x y "distinct" ∧
    (k, JsNum.nan) ∈ aggregate rows x y "avg" ∧
    (k, JsNum.inf) ∈ aggregate rows x y "min" ∧
    (k, JsNum.ninf) ∈ aggregate rows x y "max" ∧
    numberFormat JsNum.nan = "N/A" ∧
    numberFormat JsNum.inf = "InfinityB" ∧
    numberFormat JsNum.ninf = "-InfinityB" := by
  have hsum := mem_aggregate y "sum" hk
  have hcount := mem_aggregate y "count" hk
  have hdist := mem_aggregate y "distinct" hk
  have havg := mem_aggregate y "avg" hk
  have hmin := mem_aggregate y "min" hk
  have hmax := mem_aggregate y "max" hk
  rw [h0] at hsum hcount hdist havg hmin hmax
  rw [show aggValue (normAgg "sum") ([] : List JsNum) = JsNum.fin 0 from rfl] at hsum
  rw [show aggValue (normAgg "count") ([] : List JsNum) = JsNum.fin 0 from rfl] at hcount
  rw [show aggValue (normAgg "distinct") ([] : List JsNum) = JsNum.fin 0 from rfl] at hdist
  rw [show aggValue (normAgg "avg") ([] : List JsNum) = JsNum.nan from rfl] at havg
  rw [show aggValue (normAgg "min") ([] : List JsNum) = JsNum.inf from rfl] at hmin
  rw [show aggValue (normAgg "max") ([] : List JsNum) = JsNum.ninf from rfl] at hmax
  exact ⟨hsum, hcount, hdist, havg, hmin, hmax, rfl, rfl, rfl⟩

theorem aggregate_emptyGroup_values_witness :
    ("g", JsNum.nan) ∈ aggregate [[("Cat", Value.vStr "g"), ("Profit", Value.vStr "x")]]
        "Cat" "Profit" "avg" :=
  (aggregate_emptyGroup_values [[("Cat", Value.vStr "g"), ("Profit", Value.vStr "x")]]
      "Cat" "Profit" "g" (by decide) (by decide)).2.2.2.1

/-- The scalar `count` aggregate of the KPI path in `buildKPIs`: the length
of the valid-numeric list. -/
def scalarCount (rows : List Row) (col : String) : ℕ :=
  (kpiNums rows col).length

/-- The specification's reading: the number of rows holding a non-null,
numeric value in the column. -/
def countNonNullNumeric (rows : List Row) (col : String) : ℕ :=
  rows.countP (fun r =>
    match rowGet r col with
    | some (Value.vNum _) => true
    | _ => false)

/-- C5 counterexample.  A row whose value is `null` is counted by the KPI
`count` path (JavaScript `Number(null)` is `0`, which passes the `isNaN`
filter), so the count is not the number of non-null numeric rows. -/
theorem scalarCount_counterexample :
    scalarCount [[("Sales", Value.vNull)]] "Sales" = 1 ∧
    countNonNullNumeric [[("Sales", Value.vNull)]] "Sales" = 0 ∧
    scalarCount [[("Sales", Value.vNull)]] "Sales" ≠
      countNonNullNumeric [[("Sales", Value.vNull)]] "Sales" := by
  refine ⟨by decide, by decide, by decide⟩

/-- C5 (amended).  The KPI `count` equals the number of rows whose value in
the column converts to a non-`NaN` number under JavaScript `Number`
coercion (`null` coerces to `0` and is counted), and it is invariant under
permutation of the rows. -/
theorem scalarCount_coercible (rows rows' : List Row) (col : String)
    (hp : rows.Perm rows') :
    scalarCount rows col = rows.countP (fun r => !(toNumber (rowGet r col)).isNaN) ∧
    scalarCount rows col = scalarCount rows' col := by
  constructor
  · unfold scalarCount kpiNums
    rw [List.length_filterMap_eq_countP]
    apply List.countP_congr
    intro r _
    cases hn : (toNumber (rowGet r col)).isNaN <;> simp [hn]
  · unfold scalarCount kpiNums
    exact (hp.filterMap _).length_eq

theorem scalarCount_coercible_witness :
    scalarCount demoRows "Sales" = demoRows.reverse.length -
        (demoRows.reverse.length - scalarCount demoRows.reverse "Sales") ∧
    scalarCount demoRows "Sales" = scalarCount demoRows.reverse "Sales" :=
  ⟨by decide, (scalarCount_coercible demoRows demoRows.reverse "Sales" (by decide)).2⟩

/-- C6.  A KPI whose column is absent from the declared columns, or whose
projected rows have no valid numeric value in that column, renders exactly
`"N/A"` (never a numeric zero), and each KPI card is rendered from its own
declaration alone, leaving all other widgets unaffected. -/
theorem kpi_na (cols : List String) (rows : List Row) (ks1 ks2 : List KPISpec)
    (k : KPISpec)
    (h : cols.contains k.col = false ∨ kpiNums rows k.col = []) :
    renderKPI cols rows k = "N/A" ∧
    buildKPIs cols rows (ks1 ++ k :: ks2) =
      buildKPIs cols rows ks1 ++ "N/A" :: buildKPIs cols rows ks2 ∧
    ("N/A" : String) ≠ "0" := by
  have hr : renderKPI cols rows k = "N/A" := by
    rcases h with h | h
    · have hnotin : k.col ∉ cols := by simpa using h
      simp [renderKPI, hnotin]
    · simp [renderKPI, h]
  refine ⟨hr, ?_, by decide⟩
  unfold buildKPIs
  rw [List.map_append, List.map_cons, hr]

theorem kpi_na_witness :
    renderKPI ["Region", "Sales"] demoRows ⟨"Total Profit", "sum", "Profit"⟩ = "N/A" :=
  (kpi_na ["Region", "Sales"] demoRows [] [] ⟨"Total Profit", "sum", "Profit"⟩
    (Or.inl (by decide))).1

theorem pyApplyFilters_cons (cols : List String) (rows : List Row)
    (e : String × List String) (fs : List (String × List String)) :
    pyApplyFilters cols rows (e :: fs) = pyApplyFilters cols (pyStep cols rows e) fs :=
  rfl

theorem pyApplyFilters_filter_eq (cols : List String)
    (fs : List (String × List String)) : ∀ rows : List Row,
    pyApplyFilters cols rows fs =
      pyApplyFilters cols rows
        (fs.filter (fun e => decide (e.1 ∈ cols) && !e.2.isEmpty)) := by
  induction fs with
  | nil => intro rows; rfl
  | cons e rest ih =>
      intro rows
      by_cases h : e.1 ∈ cols ∧ e.2 ≠ []
      · have hpred : (decide (e.1 ∈ cols) && !e.2.isEmpty) = true := by
          rcases h with ⟨h1, h2⟩
          simp [h1, h2]
      

        have hfil : List.filter (fun e => decide (e.1 ∈ cols) && !e.2.isEmpty) (e :: rest) =
            e :: List.filter (fun e => decide (e.1 ∈ cols) && !e.2.isEmpty) rest := by
          rw [List.filter_cons]
          simp [hpred]
        rw [hfil, pyApplyFilters_cons, pyApplyFilters_cons]
        exact ih (pyStep cols rows e)
      · have hpred : (decide (e.1 ∈ cols) && !e.2.isEmpty) = false := by
          rcases not_and_or.mp h with h1 | h1
          · simp [h1]
          · simp [not_not.mp (by simpa using h1)]
        have hstep : pyStep cols rows e = rows := by
          unfold pyStep
          rw [if_neg h]
        have hfil : List.filter (fun e => decide (e.1 ∈ cols) && !e.2.isEmpty) (e :: rest) =
            List.filter (fun e => decide (e.1 ∈ cols) && !e.2.isEmpty) rest := by
          rw [List.filter_cons]
          simp [hpred]
        rw [hfil, pyApplyFilters_cons, hstep]
        exact ih rows

/-- C10.  The Python `apply_filters` ignores entries whose column is not in
the dataframe or whose accepted collection is empty: the result equals
filtering by the remaining entries alone, and an empty accepted set means
"no constraint" rather than "nothing passes". -/
theorem pyApplyFilters_skips (cols : List String) (rows : List Row)
    (fs : List (String × List String)) :
    pyApplyFilters cols rows fs =
      pyApplyFilters cols rows
        (fs.filter (fun e => decide (e.1 ∈ cols) && !e.2.isEmpty)) ∧
    (∀ c : String, pyApplyFilters cols rows [(c, [])] = rows) := by
  refine ⟨pyApplyFilters_filter_eq cols fs rows, ?_⟩
  intro c
  show pyStep cols rows (c, []) = rows
  unfold pyStep
  rw [if_neg (by simp)]

theorem pyApplyFilters_skips_witness :
    pyApplyFilters ["Region", "Sales"] demoRows
        [("Ghost", ["x"]), ("Region", [])] =
      pyApplyFilters ["Region", "Sales"] demoRows
        ([("Ghost", ["x"]), ("Region", [])].filter
          (fun e => decide (e.1 ∈ ["Region", "Sales"]) && !e.2.isEmpty)) :=
  (pyApplyFilters_skips ["Region", "Sales"] demoRows
    [("Ghost", ["x"]), ("Region", [])]).1

theorem stripFencesJson_id : ∀ (cs : List Char), (∀ c ∈ cs, c ≠ '`') →
    stripFencesJson cs = cs := by
  intro cs
  induction cs with
  | nil => intro h; rw [stripFencesJson.eq_def]
  | cons c rest ih =>
      intro h
      rw [stripFencesJson.eq_def]
      split
      · next r heq =>
          exfalso
          have : c = '`' := by injection heq
          exact h c (List.mem_cons_self c rest) this
      · next c2 r2 heq =>
          injection heq with h1 h2
          subst h1; subst h2
          rw [ih (fun d hd => h d (List.mem_cons_of_mem c hd))]
      · next x heq => simp at heq

theorem stripFencesPlain_id : ∀ (cs : List Char), (∀ c ∈ cs, c ≠ '`') →
    stripFencesPlain cs = cs := by
  intro cs
  induction cs with
  | nil => intro h; rw [stripFencesPlain.eq_def]
  | cons c rest ih =>
      intro h
      rw [stripFencesPlain.eq_def]
      split
      · next r heq =>
          exfalso
          have : c = '`' := by injection heq
          exact h c (List.mem_cons_self c rest) this
      · next c2 r2 heq =>
          injection heq with h1 h2
          subst h1; subst h2
          rw [ih (fun d hd => h d (List.mem_cons_of_mem c hd))]
      · next x heq => simp at heq

theorem dropWhile_append_all {α : Type} {p : α → Bool} (l₁ l₂ : List α)
    (h : ∀ c ∈ l₁, p c = true) :
    List.dropWhile p (l₁ ++ l₂) = List.dropWhile p l₂ := by
  induction l₁ with
  | nil => rfl
  | cons a l ih =>
      rw [List.cons_append,
        List.dropWhile_cons_of_pos (h a (List.mem_cons_self a l))]
      exact ih (fun c hc => h c (List.mem_cons_of_mem a hc))

theorem braceSpan_append (pre obj post : List Char)
    (hpre : ∀ c ∈ pre, c ≠ '{') (hpost : ∀ c ∈ post, c ≠ '}')
    (hhead : obj.head? = some '{') (hlast : obj.getLast? = some '}') :
    braceSpan (pre ++ obj ++ post) = some obj := by
  obtain ⟨t, rfl⟩ : ∃ t, obj = '{' :: t := by
    cases obj with
    | nil => simp at hhead
    | cons a t =>
        refine ⟨t, ?_⟩
        have : a = '{' := by simpa using hhead
        rw [this]
  unfold braceSpan
  have h1 : List.dropWhile (fun c => decide (c ≠ '{')) (pre ++ ('{' :: t) ++ post) =
      '{' :: (t ++ post) := by
    rw [List.append_assoc, dropWhile_append_all pre _ (fun c hc => by simp [hpre c hc]),
      List.cons_append, List.dropWhile_cons_of_neg (by simp)]
  rw [h1]
  obtain ⟨w, hw⟩ : ∃ w, ('{' :: t).reverse = '}' :: w := by
    cases hrev : ('{' :: t).reverse with
    | nil => exact absurd hrev (by simp)
    | cons b w =>
        refine ⟨w, ?_⟩
        have hh : ('{' :: t).reverse.head? = some '}' := by
          rw [List.head?_reverse]
          exact hlast
        rw [hrev] at hh
        have : b = '}' := by simpa using hh
        rw [this]
  have h2 : (('{' :: (t ++ post)).reverse.dropWhile (fun c => decide (c ≠ '}'))).reverse =
      '{' :: t := by
    rw [← List.cons_append, List.reverse_append, hw,
      dropWhile_append_all post.reverse _ (fun c hc => by
        simp [hpost c (List.mem_reverse.mp hc)]),
      List.dropWhile_cons_of_neg (by simp), ← hw, List.reverse_reverse]
  simp only [h2]
  rfl

unseal stripFencesJson stripFencesPlain commaRepair in
/-- C8 counterexample.  On a JSON object followed by prose containing a
stray closing brace, `extract_json` returns the greedy span from the first
opening to the last closing brace, not the first balanced JSON object. -/
theorem extract_json_counterexample :
    extract_json "\x7b\"a\":1\x7d x \x7d" = "\x7b\"a\":1\x7d x \x7d" ∧
    extract_json "\x7b\"a\":1\x7d x \x7d" ≠ "\x7b\"a\":1\x7d" := by
  have h : extract_json "\x7b\"a\":1\x7d x \x7d" = "\x7b\"a\":1\x7d x \x7d" := rfl
  refine ⟨h, ?_⟩
  rw [h]
  decide

unseal stripFencesJson stripFencesPlain commaRepair in
/-- C8 (amended).  `extract_json` returns the fence-stripped span from the
first opening to the last closing brace, with commas standing before a
closing brace or bracket removed and surrounding whitespace stripped: when
the prose before the object contains no opening brace, the prose after it
no closing brace, and no backtick interferes, the result is exactly the
object with its trailing commas repaired; code fences and trailing commas
are tolerated as on the concrete fenced example. -/
theorem extract_json_span :
    (∀ pre obj post : List Char,
      (∀ c ∈ pre, c ≠ '{' ∧ c ≠ '`') →
      (∀ c ∈ post, c ≠ '}' ∧ c ≠ '`') →
      (∀ c ∈ obj, c ≠ '`') →
      obj.head? = some '{' →
      obj.getLast? = some '}' →
      extract_json (String.mk (pre ++ obj ++ post)) =
        String.mk (pyStrip (commaRepair obj))) ∧
    extract_json "```json\n\x7b\"a\":1,\x7d\n```" = "\x7b\"a\":1\x7d" := by
  constructor
  · intro pre obj post hpre hpost hobj hhead hlast
    have hne : String.mk (pre ++ obj ++ post) ≠ "" := by
      intro hcon
      have hl : pre ++ obj ++ post = [] := by
        have := congrArg String.toList hcon
        simpa using this
      rcases obj with _ | ⟨a, t⟩
      · simp at hhead
      · simp at hl
    unfold extract_json
    rw [if_neg hne]
    show extractCore (pre ++ obj ++ post) = _
    unfold extractCore
    have hnb : ∀ c ∈ pre ++ obj ++ post, c ≠ '`' := by
      intro c hc
      rcases List.mem_append.mp hc with hc | hc
      · rcases List.mem_append.mp hc with hc | hc
        · exact (hpre c hc).2
        · exact hobj c hc
      · exact (hpost c hc).2
    rw [stripFencesJson_id _ hnb, stripFencesPlain_id _ hnb,
      braceSpan_append pre obj post (fun c hc => (hpre c hc).1)
        (fun c hc => (hpost c hc).1) hhead hlast]
  · rfl

theorem extract_json_span_witness :
    extract_json (String.mk ("Result: ".toList ++
        "\x7b\"a\": [1,2,],\x7d".toList ++ " done".toList)) =
      String.mk (pyStrip (commaRepair "\x7b\"a\": [1,2,],\x7d".toList)) :=
  extract_json_span.1 "Result: ".toList "\x7b\"a\": [1,2,],\x7d".toList " done".toList
    (by decide) (by decide) (by decide) (by decide) (by decide)

theorem charOfNat_toNat {n : ℕ} (h : n < 128) : (Char.ofNat n).toNat = n := by
  unfold Char.ofNat Char.toNat
  rw [dif_pos (Or.inl (by omega))]
  unfold Char.ofNatAux
  show (UInt32.ofNat' n _).toNat = n
  unfold UInt32.ofNat'
  simp [UInt32.toNat]

theorem natChars_digits (n : ℕ) : ∀ c ∈ natChars n, 48 ≤ c.toNat ∧ c.toNat ≤ 57 := by
  induction n using Nat.strong_induction_on with
  | _ n ih =>
      rw [natChars.eq_def]
      split
      · next h =>
          intro c hc
          have : c = Char.ofNat (48 + n) := by simpa using hc
          rw [this, charOfNat_toNat (by omega)]
          omega
      · next h =>
          intro c hc
          rcases List.mem_append.mp hc with hc | hc
          · exact ih (n / 10) (Nat.div_lt_self (by omega) (by omega)) c hc
          · have : c = Char.ofNat (48 + n % 10) := by simpa using hc
            rw [this, charOfNat_toNat (by omega)]
            omega

theorem numStrNN_chars (q : ℚ) : ∀ c ∈ (numStrNN q).toList,
    (48 ≤ c.toNat ∧ c.toNat ≤ 57) ∨ c = '.' ∨ c = '/' := by
  unfold numStrNN
  split_ifs with h
  · intro c hc
    exact Or.inl (natChars_digits _ c hc)
  · split
    · next k heq =>
        intro c hc
        simp only [String.toList, String.data_append] at hc
        rcases List.mem_append.mp hc with hc | hc
        · rcases List.mem_append.mp hc with hc | hc
          · exact Or.inl (natChars_digits _ c hc)
          · right; left
            simpa using hc
        · have hc2 : c ∈ List.replicate
              (k - (natChars ((q * 10 ^ k).num.toNat % 10 ^ k)).length) '0' ++
              natChars ((q * 10 ^ k).num.toNat % 10 ^ k) := hc
          rcases List.mem_append.mp hc2 with hc3 | hc3
          · rw [List.eq_of_mem_replicate hc3]
            exact Or.inl (by decide)
          · exact Or.inl (natChars_digits _ c hc3)
    · next heq =>
        intro c hc
        simp only [String.toList, String.data_append] at hc
        rcases List.mem_append.mp hc with hc | hc
        · rcases List.mem_append.mp hc with hc | hc
          · exact Or.inl (natChars_digits _ c hc)
          · refine Or.inr (Or.inr ?_)
            simpa using hc
        · exact Or.inl (natChars_digits _ c hc)

theorem numStr_chars (q : ℚ) : ∀ c ∈ (numStr q).toList,
    (48 ≤ c.toNat ∧ c.toNat ≤ 57) ∨ c = '-' ∨ c = '.' ∨ c = '/' := by
  unfold numStr
  split_ifs with h
  · intro c hc
    simp only [String.toList, String.data_append] at hc
    rcases List.mem_append.mp hc with hc | hc
    · right; left
      simpa using hc
    · rcases numStrNN_chars (-q) c hc with h2 | h2 | h2
      · exact Or.inl h2
      · exact Or.inr (Or.inr (Or.inl h2))
      · exact Or.inr (Or.inr (Or.inr h2))
  · intro c hc
    rcases numStrNN_chars q c hc with h2 | h2 | h2
    · exact Or.inl h2
    · exact Or.inr (Or.inr (Or.inl h2))
    · exact Or.inr (Or.inr (Or.inr h2))

/-- Modelled from the spec: the JSON string escapes that the export's
`JSON.stringify` emits, inverted (the repository contains no importer; the
spec's export-then-parse round trip needs a standard CSV reader that
understands the quoted fields the export produces). -/
def unescChar (c : Char) : Char :=
  if c = 'n' then '\n'
  else if c = 'r' then '\r'
  else if c = 't' then '\t'
  else if c = 'b' then '\x08'
  else if c = 'f' then '\x0c'
  else c

/-- Modelled from the spec: read the body of a double-quoted CSV field up
to the closing quote, decoding backslash escapes; returns the decoded
content and the remaining text. -/
def parseQuoted : List Char → Option (List Char × List Char)
  | [] => none
  | c :: rest =>
      if c = '"' then some ([], rest)
      else if c = '\\' then
        match rest with
        | [] => none
        | e :: rest2 => (parseQuoted rest2).map (fun p => (unescChar e :: p.1, p.2))
      else (parseQuoted rest).map (fun p => (c :: p.1, p.2))

/-- A character that continues an unquoted field. -/
def notDelim (c : Char) : Bool := c != ',' && c != '\n'

/-- Modelled from the spec: read one CSV field, quoted or bare; the
delimiter is left in the remaining text. -/
def parseField (cs : List Char) : Option (List Char × List Char) :=
  if cs.head? = some '"' then parseQuoted cs.tail
  else some (cs.takeWhile notDelim, cs.dropWhile notDelim)

/-- Modelled from the spec: read exactly `n ≥ 1` comma-separated fields. -/
def parseFields : ℕ → List Char → Option (List String × List Char)
  | 0, _ => none
  | 1, cs => (parseField cs).map (fun p => ([String.mk p.1], p.2))
  | n + 2, cs =>
      (parseField cs).bind (fun p =>
        match p.2 with
        | ',' :: rest2 =>
            (parseFields (n + 1) rest2).map (fun q => (String.mk p.1 :: q.1, q.2))
        | _ => none)

theorem parseQuoted_length_aux : ∀ (n : ℕ) (cs : List Char), cs.length ≤ n →
    ∀ f r, parseQuoted cs = some (f, r) → r.length < cs.length := by
  intro n
  induction n with
  | zero =>
      intro cs hcs f r h
      have hnil : cs = [] := List.eq_nil_of_length_eq_zero (by omega)
      subst hnil
      exact Option.noConfusion h
  | succ n ih =>
      intro cs hcs f r h
      cases cs with
      | nil => exact Option.noConfusion h
      | cons c rest =>
          rw [parseQuoted.eq_def] at h
          simp only [] at h
          split_ifs at h with hq hb
          · simp only [Option.some.injEq, Prod.mk.injEq] at h
            rw [← h.2]
            simp
          · cases rest with
            | nil => exact Option.noConfusion h
            | cons e rest2 =>
                rcases Option.map_eq_some'.mp h with ⟨p, hp, hpe⟩
                have hlen := ih rest2 (by
                  simp only [List.length_cons] at hcs ⊢
                  omega) p.1 p.2 (by rw [hp])
                injection hpe with he1 he2
                subst he2
                simp only [List.length_cons]
                omega
          · rcases Option.map_eq_some'.mp h with ⟨p, hp, hpe⟩
            have hlen := ih rest (by
              simp only [List.length_cons] at hcs
              omega) p.1 p.2 (by rw [hp])
            injection hpe with he1 he2
            subst he2
            simp only [List.length_cons]
            omega

theorem parseQuoted_length (cs : List Char) {f r : List Char}
    (h : parseQuoted cs = some (f, r)) : r.length < cs.length :=
  parseQuoted_length_aux cs.length cs le_rfl f r h

theorem parseField_length (cs : List Char) {f r : List Char}
    (h : parseField cs = some (f, r)) : r.length ≤ cs.length := by
  unfold parseField at h
  split_ifs at h with hq
  · have h1 := parseQuoted_length _ h
    have h2 : cs.tail.length ≤ cs.length := by
      cases cs <;> simp
    omega
  · simp only [Option.some.injEq, Prod.mk.injEq] at h
    rw [← h.2]
    exact (List.dropWhile_sublist notDelim).length_le

theorem parseFields_length : ∀ (n : ℕ) (cs : List Char) (fs : List String)
    (r : List Char), parseFields n cs = some (fs, r) → r.length ≤ cs.length := by
  intro n
  induction n with
  | zero => intro cs fs r h; simp [parseFields] at h
  | succ n ih =>
      intro cs fs r h
      cases n with
      | zero =>
          simp only [parseFields] at h
          rcases Option.map_eq_some'.mp h with ⟨p, hp, hpe⟩
          injection hpe with he1 he2
          rw [← he2]
          exact parseField_length cs (by rw [hp])
      | succ m =>
          simp only [parseFields] at h
          rcases Option.bind_eq_some.mp h with ⟨p, hp, h2⟩
          split at h2
          · next rest2 heq =>
              rcases Option.map_eq_some'.mp h2 with ⟨q, hq, hqe⟩
              injection hqe with he1 he2
              have h1 := ih rest2 q.1 q.2 (by rw [hq])
              have h3 := parseField_length cs (by rw [hp] :
                parseField cs = some (p.1, p.2))
              rw [heq] at h3
              simp only [List.length_cons] at h3
              rw [← he2]
              omega
          · next heq => exact Option.noConfusion h2

/-- Modelled from the spec: read the records after the header, each
preceded by the newline that `toCSV` places before it. -/
def parseRecords (n : ℕ) (cs : List Char) : Option (List (List String)) :=
  match cs with
  | [] => some []
  | c :: more =>
      if c = '\n' then
        match hpf : parseFields n more with
        | some (fs, after) => (parseRecords n after).map (fun rs => fs :: rs)
        | none => none
      else none
termination_by cs.length
decreasing_by
  have h1 := parseFields_length _ _ _ _ hpf
  simp only [List.length_cons]
  omega

/-- Split a header line at commas. -/
def splitComma (cs : List Char) : List (List Char) :=
  let f := cs.takeWhile (fun c => c != ',')
  match h : cs.drop f.length with
  | [] => [f]
  | _ :: r => f :: splitComma r
termination_by cs.length
decreasing_by
  have h1 : (cs.drop ((cs.takeWhile (fun c => c != ',')).length)).length ≤ cs.length := by
    simp [List.length_drop]
  rw [h] at h1
  simp only [List.length_cons] at h1
  omega

/-- Modelled from the spec: parse an exported CSV text back into its header
and its records. -/
def parseCSV (s : String) : Option (List String × List (List String)) :=
  let cs := s.toList
  let headerLine := cs.takeWhile (fun c => c != '\n')
  let header := (splitComma headerLine).map String.mk
  (parseRecords header.length (cs.drop headerLine.length)).map (fun rs => (header, rs))

/-- The null-normalized string form of a cell: the `String(v)` encoding
with the empty string for null and undefined. -/
def cellStr : Option Value → String
  | none => ""
  | some Value.vNull => ""
  | some (Value.vStr s) => s
  | some (Value.vNum q) => numStr q
  | some (Value.vBool true) => "true"
  | some (Value.vBool false) => "false"

/-- A character that the export's escaping and the parser's unescaping
round-trip: printable, or one of tab, newline, carriage return. -/
def charOK (c : Char) : Bool :=
  decide (32 ≤ c.toNat) || c = '\n' || c = '\t' || c = '\r'

/-- A cell value whose export field parses back exactly. -/
def valOK : Option Value → Bool
  | some (Value.vStr s) => s.toList.all charOK
  | _ => true

theorem toList_append (a b : String) : (a ++ b).toList = a.toList ++ b.toList :=
  String.data_append a b

theorem mk_toList (s : String) : String.mk s.toList = s := rfl

theorem joinStr_foldl_append (sep p q : String) (ys : List String) :
    ys.foldl (fun a b => a ++ sep ++ b) (p ++ q) =
      p ++ ys.foldl (fun a b => a ++ sep ++ b) q := by
  induction ys generalizing q with
  | nil => rfl
  | cons y ys ih =>
      rw [List.foldl_cons, List.foldl_cons]
      have hassoc : ((p ++ q) ++ sep) ++ y = p ++ ((q ++ sep) ++ y) := by
        simp [String.append_assoc]
      rw [hassoc]
      exact ih ((q ++ sep) ++ y)

theorem joinStr_cons2 (sep x y : String) (ys : List String) :
    joinStr sep (x :: y :: ys) = x ++ sep ++ joinStr sep (y :: ys) := by
  show (y :: ys).foldl (fun a b => a ++ sep ++ b) x = _
  rw [List.foldl_cons]
  show ys.foldl (fun a b => a ++ sep ++ b) ((x ++ sep) ++ y) = _
  rw [joinStr_foldl_append sep (x ++ sep) y ys]
  rfl

theorem joinStr_chars (sep : String) : ∀ (l : List String),
    ∀ c ∈ (joinStr sep l).toList, (∃ s ∈ l, c ∈ s.toList) ∨ c ∈ sep.toList := by
  intro l
  induction l with
  | nil => intro c hc; simp [joinStr, String.toList] at hc
  | cons x ys ih =>
      intro c hc
      cases ys with
      | nil =>
          left
          exact ⟨x, List.mem_singleton_self x, hc⟩
      | cons y ys2 =>
          rw [joinStr_cons2, toList_append, toList_append] at hc
          rcases List.mem_append.mp hc with hc2 | hc2
          · rcases List.mem_append.mp hc2 with hc3 | hc3
            · exact Or.inl ⟨x, List.mem_cons_self x _, hc3⟩
            · exact Or.inr hc3
          · rcases ih c hc2 with ⟨s, hs, hcs⟩ | h2
            · exact Or.inl ⟨s, List.mem_cons_of_mem x hs, hcs⟩
            · exact Or.inr h2

theorem takeWhile_all {α : Type} {p : α → Bool} : ∀ (l : List α),
    (∀ a ∈ l, p a = true) → l.takeWhile p = l := by
  intro l
  induction l with
  | nil => intro h; rfl
  | cons a l ih =>
      intro h
      rw [List.takeWhile_cons_of_pos (h a (List.mem_cons_self a l)),
        ih (fun b hb => h b (List.mem_cons_of_mem a hb))]

theorem dropWhile_all {α : Type} {p : α → Bool} : ∀ (l : List α),
    (∀ a ∈ l, p a = true) → l.dropWhile p = [] := by
  intro l
  induction l with
  | nil => intro h; rfl
  | cons a l ih =>
      intro h
      rw [List.dropWhile_cons_of_pos (h a (List.mem_cons_self a l)),
        ih (fun b hb => h b (List.mem_cons_of_mem a hb))]

theorem parseQuoted_cons_quote (X : List Char) : parseQuoted ('"' :: X) = some ([], X) := by
  rw [parseQuoted.eq_def]
  simp

theorem parseQuoted_cons_esc (e : Char) (X : List Char) :
    parseQuoted ('\\' :: e :: X) =
      (parseQuoted X).map (fun p => (unescChar e :: p.1, p.2)) := by
  rw [parseQuoted.eq_def]
  simp

theorem parseQuoted_cons_raw (c : Char) (X : List Char) (h1 : c ≠ '"') (h2 : c ≠ '\\') :
    parseQuoted (c :: X) = (parseQuoted X).map (fun p => (c :: p.1, p.2)) := by
  rw [parseQuoted.eq_def]
  simp only []
  rw [if_neg h1, if_neg h2]

theorem uint32_lt_32 (c : Char) (h : 32 ≤ c.toNat) : ¬ c.val < 32 := by
  intro hlt
  have h2 : c.val.toNat < (32 : UInt32).toNat := hlt
  have h3 : (32 : UInt32).toNat = 32 := by decide
  have h4 : c.toNat = c.val.toNat := rfl
  omega

theorem jsonEscChar_raw (c : Char) (h1 : c ≠ '"') (h2 : c ≠ '\\')
    (h6 : 32 ≤ c.toNat) : jsonEscChar c = [c] := by
  have h3 : c ≠ '\n' := fun hx => absurd (hx ▸ h6) (by decide)
  have h4 : c ≠ '\r' := fun hx => absurd (hx ▸ h6) (by decide)
  have h5 : c ≠ '\t' := fun hx => absurd (hx ▸ h6) (by decide)
  have h7 : c ≠ '\x08' := fun hx => absurd (hx ▸ h6) (by decide)
  have h8 : c ≠ '\x0c' := fun hx => absurd (hx ▸ h6) (by decide)
  unfold jsonEscChar
  rw [if_neg h1, if_neg h2, if_neg h3, if_neg h4, if_neg h5, if_neg h7, if_neg h8,
    if_neg (uint32_lt_32 c h6)]

theorem parseQuoted_esc : ∀ (s : List Char) (rest : List Char),
    (∀ c ∈ s, charOK c = true) →
    parseQuoted (jsonEscList s ++ '"' :: rest) = some (s, rest) := by
  intro s
  induction s with
  | nil =>
      intro rest h
      show parseQuoted ('"' :: rest) = some ([], rest)
      exact parseQuoted_cons_quote rest
  | cons c s2 ih =>
      intro rest h
      have hc := h c (List.mem_cons_self c s2)
      have hs2 := fun d hd => h d (List.mem_cons_of_mem c hd)
      have hstep : jsonEscList (c :: s2) = jsonEscChar c ++ jsonEscList s2 := by
        simp [jsonEscList]
      rw [hstep, List.append_assoc]
      by_cases h1 : c = '"'
      · subst h1
        rw [show jsonEscChar '"' = ['\\', '"'] from rfl, List.cons_append, List.cons_append,
          List.nil_append, parseQuoted_cons_esc, ih rest hs2,
          show unescChar '"' = '"' from rfl]
        rfl
      · by_cases h2 : c = '\\'
        · subst h2
          rw [show jsonEscChar '\\' = ['\\', '\\'] from rfl, List.cons_append,
            List.cons_append, List.nil_append, parseQuoted_cons_esc, ih rest hs2,
            show unescChar '\\' = '\\' from rfl]
          rfl
        · by_cases h3 : c = '\n'
          · subst h3
            rw [show jsonEscChar '\n' = ['\\', 'n'] from rfl, List.cons_append,
              List.cons_append, List.nil_append, parseQuoted_cons_esc, ih rest hs2,
              show unescChar 'n' = '\n' from rfl]
            rfl
          · by_cases h4 : c = '\r'
            · subst h4
              rw [show jsonEscChar '\r' = ['\\', 'r'] from rfl, List.cons_append,
                List.cons_append, List.nil_append, parseQuoted_cons_esc, ih rest hs2,
                show unescChar 'r' = '\r' from rfl]
              rfl
            · by_cases h5 : c = '\t'
              · subst h5
                rw [show jsonEscChar '\t' = ['\\', 't'] from rfl, List.cons_append,
                  List.cons_append, List.nil_append, parseQuoted_cons_esc, ih rest hs2,
                  show unescChar 't' = '\t' from rfl]
                rfl
              · have h6 : 32 ≤ c.toNat := by
                  unfold charOK at hc
                  simp only [Bool.or_eq_true, decide_eq_true_eq] at hc
                  rcases hc with ((h9 | h10) | h11) | h12
                  · exact h9
                  · exact absurd (by simpa using h10) h3
                  · exact absurd (by simpa using h11) h5
                  · exact absurd (by simpa using h12) h4
                rw [jsonEscChar_raw c h1 h2 h6, List.cons_append, List.nil_append,
                  parseQuoted_cons_raw c _ h1 h2, ih rest hs2]
                rfl

theorem parseField_quoted (s rest : List Char) (hs : ∀ c ∈ s, charOK c = true) :
    parseField ('"' :: (jsonEscList s ++ '"' :: rest)) = some (s, rest) := by
  unfold parseField
  split
  · exact parseQuoted_esc s rest hs
  · next h => exact absurd (by simp) h

theorem notDelim_iff (c : Char) : notDelim c = true ↔ c ≠ ',' ∧ c ≠ '\n' := by
  simp [notDelim]

theorem parseField_bare (f rest : List Char)
    (hf : ∀ c ∈ f, notDelim c = true)
    (hq : ∀ c ∈ f, c ≠ '"')
    (hrest : rest.head? = some ',' ∨ rest.head? = some '\n' ∨ rest = []) :
    parseField (f ++ rest) = some (f, rest) := by
  have hstop : rest.takeWhile notDelim = [] ∧ rest.dropWhile notDelim = rest := by
    rcases hrest with h | h | h
    · cases rest with
      | nil => simp at h
      | cons a t =>
          have ha : a = ',' := by simpa using h
          subst ha
          exact ⟨List.takeWhile_cons_of_neg (by decide),
            List.dropWhile_cons_of_neg (by decide)⟩
    · cases rest with
      | nil => simp at h
      | cons a t =>
          have ha : a = '\n' := by simpa using h
          subst ha
          exact ⟨List.takeWhile_cons_of_neg (by decide),
            List.dropWhile_cons_of_neg (by decide)⟩
    · subst h
      exact ⟨rfl, rfl⟩
  unfold parseField
  rw [if_neg ?hq2]
  case hq2 =>
    cases f with
    | nil =>
        simp only [List.nil_append]
        intro hcon
        rcases hrest with h | h | h
        · rw [h] at hcon
          simp at hcon
        · rw [h] at hcon
          simp at hcon
        · subst h
          simp at hcon
    | cons a f2 =>
        simp only [List.cons_append, List.head?_cons]
        intro hcon
        have ha : a = '"' := by simpa using hcon
        exact hq a (List.mem_cons_self a f2) ha
  rw [List.takeWhile_append_of_pos hf, dropWhile_append_all f rest hf,
    hstop.1, hstop.2, List.append_nil]

theorem numStr_notDelim (q : ℚ) : ∀ c ∈ (numStr q).toList, notDelim c = true := by
  intro c hc
  rw [notDelim_iff]
  rcases numStr_chars q c hc with h | h | h | h
  · constructor
    · intro hx; subst hx; exact absurd h.1 (by decide)
    · intro hx; subst hx; exact absurd h.1 (by decide)
  · subst h; exact ⟨by decide, by decide⟩
  · subst h; exact ⟨by decide, by decide⟩
  · subst h; exact ⟨by decide, by decide⟩

theorem numStr_noquote (q : ℚ) : ∀ c ∈ (numStr q).toList, c ≠ '"' := by
  intro c hc
  rcases numStr_chars q c hc with h | h | h | h
  · intro hx; subst hx; exact absurd h.1 (by decide)
  · subst h; decide
  · subst h; decide
  · subst h; decide

theorem parseField_cell (v : Option Value) (rest : List Char) (hOK : valOK v = true)
    (hrest : rest.head? = some ',' ∨ rest.head? = some '\n' ∨ rest = []) :
    parseField ((csvField v).toList ++ rest) = some ((cellStr v).toList, rest) := by
  cases v with
  | none =>
      show parseField (('"' :: (jsonEscList [] ++ ['"'])) ++ rest) = some ([], rest)
      have hre : ('"' :: (jsonEscList [] ++ ['"'])) ++ rest =
          '"' :: (jsonEscList [] ++ '"' :: rest) := by simp
      rw [hre]
      exact parseField_quoted [] rest (by intro c hc; simp at hc)
  | some val =>
      cases val with
      | vNull =>
          show parseField (('"' :: (jsonEscList [] ++ ['"'])) ++ rest) = some ([], rest)
          have hre : ('"' :: (jsonEscList [] ++ ['"'])) ++ rest =
              '"' :: (jsonEscList [] ++ '"' :: rest) := by simp
          rw [hre]
          exact parseField_quoted [] rest (by intro c hc; simp at hc)
      | vStr s =>
          show parseField (('"' :: (jsonEscList s.toList ++ ['"'])) ++ rest) =
            some (s.toList, rest)
          have hre : ('"' :: (jsonEscList s.toList ++ ['"'])) ++ rest =
              '"' :: (jsonEscList s.toList ++ '"' :: rest) := by simp
          rw [hre]
          refine parseField_quoted s.toList rest ?_
          have : s.toList.all charOK = true := hOK
          exact fun c hc => List.all_eq_true.mp this c hc
      | vNum q =>
          exact parseField_bare _ rest (numStr_notDelim q) (numStr_noquote q) hrest
      | vBool b =>
          cases b with
          | true =>
              exact parseField_bare "true".toList rest (by decide) (by decide) hrest
          | false =>
              exact parseField_bare "false".toList rest (by decide) (by decide) hrest

theorem parseFields_one (cs : List Char) :
    parseFields 1 cs = (parseField cs).map (fun p => ([String.mk p.1], p.2)) := rfl

theorem parseFields_succ2 (n : ℕ) (cs : List Char) :
    parseFields (n + 2) cs = (parseField cs).bind (fun p =>
      match p.2 with
      | ',' :: rest2 =>
          (parseFields (n + 1) rest2).map (fun q => (String.mk p.1 :: q.1, q.2))
      | _ => none) := rfl

theorem parseFields_row : ∀ (cols : List String) (r : Row) (rest : List Char),
    cols ≠ [] →
    (∀ c ∈ cols, valOK (rowGet r c) = true) →
    (rest.head? = some '\n' ∨ rest = []) →
    parseFields cols.length ((csvLine cols r).toList ++ rest) =
      some (cols.map (fun c => cellStr (rowGet r c)), rest) := by
  intro cols
  induction cols with
  | nil => intro r rest hne; exact absurd rfl hne
  | cons c0 cols2 ih =>
      intro r rest hne hvals hrest
      have hv0 := hvals c0 (List.mem_cons_self c0 cols2)
      cases cols2 with
      | nil =>
          have hline : csvLine [c0] r = csvField (rowGet r c0) := rfl
          rw [show ([c0] : List String).length = 1 from rfl, hline, parseFields_one,
            parseField_cell _ rest hv0 (Or.inr hrest)]
          simp [mk_toList]
      | cons c1 cols3 =>
          have hvrest : ∀ c ∈ c1 :: cols3, valOK (rowGet r c) = true :=
            fun c hc => hvals c (List.mem_cons_of_mem c0 hc)
          have hline : csvLine (c0 :: c1 :: cols3) r =
              csvField (rowGet r c0) ++ "," ++ csvLine (c1 :: cols3) r := by
            unfold csvLine
            simp only [List.map_cons]
            exact joinStr_cons2 "," _ _ _
          have hsplit : ((csvLine (c0 :: c1 :: cols3) r).toList ++ rest) =
              (csvField (rowGet r c0)).toList ++
                (',' :: ((csvLine (c1 :: cols3) r).toList ++ rest)) := by
            rw [hline, toList_append, toList_append]
            simp
          rw [show (c0 :: c1 :: cols3 : List String).length = cols3.length + 2 by simp,
            hsplit, parseFields_succ2,
            parseField_cell (rowGet r c0) (',' :: ((csvLine (c1 :: cols3) r).toList ++ rest))
              hv0 (Or.inl rfl)]
          have hih := ih r rest (by simp) hvrest hrest
          simp only [List.length_cons] at hih
          show (parseFields (cols3.length + 1) ((csvLine (c1 :: cols3) r).toList ++ rest)).map
              (fun q => (String.mk (cellStr (rowGet r c0)).toList :: q.1, q.2)) =
            some ((c0 :: c1 :: cols3).map (fun c => cellStr (rowGet r c)), rest)
          rw [hih]
          simp [mk_toList]

theorem parseRecords_nil (n : ℕ) : parseRecords n [] = some [] := by
  rw [parseRecords.eq_def]

theorem parseRecords_cons (n : ℕ) (more : List Char) :
    parseRecords n ('\n' :: more) =
      match parseFields n more with
      | some (fs, after) => (parseRecords n after).map (fun rs => fs :: rs)
      | none => none := by
  rw [parseRecords.eq_def]
  simp only []
  rw [if_pos trivial]
  split
  · next fs after heq => rw [heq]
  · next heq => rw [heq]

theorem parseRecords_rows : ∀ (rows : List Row) (cols : List String),
    rows ≠ [] →
    cols ≠ [] →
    (∀ r ∈ rows, ∀ c ∈ cols, valOK (rowGet r c) = true) →
    parseRecords cols.length
        ('\n' :: (joinStr "\n" (rows.map (csvLine cols))).toList) =
      some (rows.map (fun r => cols.map (fun c => cellStr (rowGet r c)))) := by
  intro rows
  induction rows with
  | nil => intro cols hne; exact absurd rfl hne
  | cons r0 rows2 ih =>
      intro cols hne hc hvals
      have hv0 := hvals r0 (List.mem_cons_self r0 rows2)
      cases rows2 with
      | nil =>
          have hb : joinStr "\n" ([r0].map (csvLine cols)) = csvLine cols r0 := rfl
          rw [hb, parseRecords_cons]
          have hpf := parseFields_row cols r0 [] hc hv0 (Or.inr rfl)
          rw [List.append_nil] at hpf
          rw [hpf]
          simp only []
          rw [parseRecords_nil]
          simp
      | cons r1 rows3 =>
          have hvrest : ∀ r ∈ r1 :: rows3, ∀ c ∈ cols, valOK (rowGet r c) = true :=
            fun r hr => hvals r (List.mem_cons_of_mem r0 hr)
          have hb : joinStr "\n" ((r0 :: r1 :: rows3).map (csvLine cols)) =
              csvLine cols r0 ++ "\n" ++ joinStr "\n" ((r1 :: rows3).map (csvLine cols)) := by
            simp only [List.map_cons]
            exact joinStr_cons2 "\n" _ _ _
          have hsplit : (joinStr "\n" ((r0 :: r1 :: rows3).map (csvLine cols))).toList =
              (csvLine cols r0).toList ++
                ('\n' :: (joinStr "\n" ((r1 :: rows3).map (csvLine cols))).toList) := by
            rw [hb, toList_append, toList_append]
            simp
          rw [hsplit, parseRecords_cons]
          have hpf := parseFields_row cols r0
            ('\n' :: (joinStr "\n" ((r1 :: rows3).map (csvLine cols))).toList)
            hc hv0 (Or.inl rfl)
          rw [hpf]
          simp only []
          have hih := ih cols (by simp) hc hvrest
          rw [hih]
          simp

theorem splitComma_eq (cs : List Char) :
    splitComma cs =
      match cs.drop ((cs.takeWhile (fun c => c != ',')).length) with
      | [] => [cs.takeWhile (fun c => c != ',')]
      | _ :: r => cs.takeWhile (fun c => c != ',') :: splitComma r := by
  rw [splitComma.eq_def]
  simp only []
  split
  · next heq => rw [heq]
  · next a r heq => rw [heq]

theorem splitComma_join : ∀ (cols : List String),
    cols ≠ [] →
    (∀ s ∈ cols, ∀ c ∈ s.toList, c ≠ ',' ∧ c ≠ '\n') →
    splitComma ((joinStr "," cols).toList) = cols.map String.toList := by
  intro cols
  induction cols with
  | nil => intro hne; exact absurd rfl hne
  | cons x cols2 ih =>
      intro hne hcols
      have hx : ∀ c ∈ x.toList, (c != ',') = true := by
        intro c hc
        simpa using (hcols x (List.mem_cons_self x cols2) c hc).1
      cases cols2 with
      | nil =>
          have hj : joinStr "," [x] = x := rfl
          rw [hj, splitComma_eq, takeWhile_all x.toList hx, List.drop_length]
          simp
      | cons y cols3 =>
          have hrest : ∀ s ∈ y :: cols3, ∀ c ∈ s.toList, c ≠ ',' ∧ c ≠ '\n' :=
            fun s hs => hcols s (List.mem_cons_of_mem x hs)
          have hj : joinStr "," (x :: y :: cols3) = x ++ "," ++ joinStr "," (y :: cols3) :=
            joinStr_cons2 "," x y cols3
          have hsplit : (joinStr "," (x :: y :: cols3)).toList =
              x.toList ++ (',' :: (joinStr "," (y :: cols3)).toList) := by
            rw [hj, toList_append, toList_append]
            simp
          have htw : (x.toList ++ (',' :: (joinStr "," (y :: cols3)).toList)).takeWhile
              (fun c => c != ',') = x.toList := by
            rw [List.takeWhile_append_of_pos hx,
              List.takeWhile_cons_of_neg (by simp), List.append_nil]
          have hdr : (x.toList ++ (',' :: (joinStr "," (y :: cols3)).toList)).drop
              x.toList.length = ',' :: (joinStr "," (y :: cols3)).toList :=
            List.drop_left x.toList _
          rw [hsplit, splitComma_eq, htw, hdr]
          simp only []
          rw [ih (by simp) hrest]
          simp

theorem headerChars (cols : List String)
    (hcols : ∀ s ∈ cols, ∀ c ∈ s.toList, c ≠ ',' ∧ c ≠ '\n') :
    ∀ c ∈ (joinStr "," cols).toList, (c != '\n') = true := by
  intro c hc
  rcases joinStr_chars "," cols c hc with ⟨s, hs, hcs⟩ | h
  · simpa using (hcols s hs c hcs).2
  · have hcomma : c = ',' := by simpa using h
    subst hcomma
    decide

/-- C7 (amended): the export-then-parse round trip holds for the encoding
`toCSV` actually uses. For every non-empty column list whose names contain
no comma and no newline and every non-empty row list whose cells
round-trip (`valOK`), parsing the exported text with the spec-modelled CSV
reader returns exactly the header and the null-normalized `String(v)` cell
table of the projected rows. -/
theorem toCSV_roundtrip (cols : List String) (rows : List Row)
    (hc : cols ≠ []) (hr : rows ≠ [])
    (hcols : ∀ s ∈ cols, ∀ c ∈ s.toList, c ≠ ',' ∧ c ≠ '\n')
    (hvals : ∀ r ∈ rows, ∀ c ∈ cols, valOK (rowGet r c) = true) :
    parseCSV (toCSV cols rows) =
      some (cols, rows.map (fun r => cols.map (fun c => cellStr (rowGet r c)))) := by
  have hsplit : (toCSV cols rows).toList =
      (joinStr "," cols).toList ++
        ('\n' :: (joinStr "\n" (rows.map (csvLine cols))).toList) := by
    unfold toCSV
    rw [toList_append, toList_append]
    simp
  have hH := headerChars cols hcols
  have htw : ((joinStr "," cols).toList ++
      ('\n' :: (joinStr "\n" (rows.map (csvLine cols))).toList)).takeWhile
      (fun c => c != '\n') = (joinStr "," cols).toList := by
    rw [List.takeWhile_append_of_pos hH, List.takeWhile_cons_of_neg (by simp),
      List.append_nil]
  have hdr : ((joinStr "," cols).toList ++
      ('\n' :: (joinStr "\n" (rows.map (csvLine cols))).toList)).drop
      (joinStr "," cols).toList.length =
      '\n' :: (joinStr "\n" (rows.map (csvLine cols))).toList :=
    List.drop_left _ _
  have hhd : (splitComma (joinStr "," cols).toList).map String.mk = cols := by
    rw [splitComma_join cols hc hcols, List.map_map]
    have hcomp : String.mk ∘ String.toList = id := funext mk_toList
    rw [hcomp, List.map_id]
  unfold parseCSV
  simp only []
  rw [hsplit, htw, hhd, hdr, parseRecords_rows rows cols hr hc hvals]
  rfl

theorem toCSV_roundtrip_witness :
    parseCSV (toCSV ["Region", "Sales"] demoRows) =
      some (["Region", "Sales"],
        demoRows.map (fun r => ["Region", "Sales"].map (fun c => cellStr (rowGet r c)))) :=
  toCSV_roundtrip ["Region", "Sales"] demoRows (by decide) (by decide) (by decide)
    (by decide)

/-- The field encoding the claim asserts for the export: the filter
comparison's string form (`String(v)` with the empty string for null),
comma-joined per row (this definition follows the specification's words,
for comparison with the `toCSV` of the source). -/
def specToCSV (cols : List String) (rows : List Row) : String :=
  joinStr "," cols ++ "\n" ++
    joinStr "\n" (rows.map (fun r =>
      joinStr "," (cols.map (fun c => cellStr (rowGet r c)))))

/-- C7: the export does not render fields through the filter comparison's
string encoding: a string cell is `JSON.stringify`-quoted, so the exported
text differs from the claimed encoding already on a one-cell table. -/
theorem toCSV_counterexample :
    toCSV ["A"] [[("A", Value.vStr "East")]] = "A\n\"East\"" ∧
    specToCSV ["A"] [[("A", Value.vStr "East")]] = "A\nEast" ∧
    toCSV ["A"] [[("A", Value.vStr "East")]] ≠
      specToCSV ["A"] [[("A", Value.vStr "East")]] := by
  refine ⟨rfl, rfl, ?_⟩
  decide

/-- Two to an integer power, as a rational. -/
def pw2 (e : ℤ) : ℚ :=
  if 0 ≤ e then ((2 ^ e.toNat : ℕ) : ℚ) else 1 / ((2 ^ (-e).toNat : ℕ) : ℚ)

/-- Halve until the argument drops below 2, counting the steps; the fuel
bounds the recursion and `lg2` passes `n` itself, always enough. -/
def lg2F : ℕ → ℕ → ℕ
  | 0, _ => 0
  | fuel + 1, n => if 2 ≤ n then lg2F fuel (n / 2) + 1 else 0

/-- Floor of the base-2 logarithm of a natural number (0 below 2). -/
def lg2 (n : ℕ) : ℕ := lg2F n n

/-- Floor of the base-2 logarithm of a positive rational: for
`y = p / q` in lowest terms the floor is `lg2 p - lg2 q` or one less, and
one comparison settles which. -/
def flog2q (y : ℚ) : ℤ :=
  let e0 : ℤ := (lg2 y.num.toNat : ℤ) - (lg2 y.den : ℤ)
  if y < pw2 e0 then e0 - 1 else e0

/-- Round a nonnegative rational to a natural number, half to even. -/
def rhe (r : ℚ) : ℕ :=
  let n : ℕ := r.num.toNat / r.den
  let f : ℚ := r - (n : ℚ)
  if f < 1 / 2 then n
  else if 1 / 2 < f then n + 1
  else if n % 2 = 0 then n else n + 1

/-- Round a positive rational to the IEEE-754 binary64 grid, half to even:
a 53-bit significand, overflow to `Infinity` past exponent 1023, and the
fixed unit `2 ^ (-1074)` below the normal range. -/
def roundPos (y : ℚ) : JsNum :=
  let e : ℤ := flog2q y
  if e < -1022 then JsNum.fin ((rhe (y / pw2 (-1074)) : ℚ) * pw2 (-1074))
  else
    let m : ℕ := rhe (y / pw2 (e - 52))
    if m = 2 ^ 53 then
      (if 1023 ≤ e then JsNum.inf else JsNum.fin ((2 ^ 52 : ℚ) * pw2 (e - 51)))
    else if 1023 < e then JsNum.inf
    else JsNum.fin ((m : ℚ) * pw2 (e - 52))

/-- IEEE-754 binary64 rounding of an exact rational result: the rounding a
JavaScript engine applies after every arithmetic operation on numbers. -/
def fpRound (x : ℚ) : JsNum :=
  if x = 0 then JsNum.fin 0
  else if 0 < x then roundPos x
  else
    match roundPos (-x) with
    | JsNum.fin q => JsNum.fin (-q)
    | JsNum.inf => JsNum.ninf
    | v => v

/-- JavaScript `+` on numbers with the IEEE-754 binary64 rounding of the
finite case: the refinement of `JsNum.add` that the `reduce((a,b)=>a+b,0)`
sums of `aggregate` actually perform. -/
def JsNum.fpAdd : JsNum → JsNum → JsNum
  | nan, _ => nan
  | _, nan => nan
  | inf, ninf => nan
  | ninf, inf => nan
  | inf, _ => inf
  | _, inf => inf
  | ninf, _ => ninf
  | _, ninf => ninf
  | fin a, fin b => fpRound (a + b)

/-- JavaScript `/` on numbers with the IEEE-754 binary64 rounding of the
finite case (`0/0` is `NaN`): the refinement of `JsNum.div` used by the
`avg` aggregation. -/
def JsNum.fpDiv : JsNum → JsNum → JsNum
  | nan, _ => nan
  | _, nan => nan
  | inf, inf => nan
  | inf, ninf => nan
  | ninf, inf => nan
  | ninf, ninf => nan
  | inf, fin b => if b < 0 then ninf else inf
  | ninf, fin b => if b < 0 then inf else ninf
  | fin _, inf => fin 0
  | fin _, ninf => fin 0
  | fin a, fin b =>
      if b = 0 then (if a = 0 then nan else if a < 0 then ninf else inf)
      else fpRound (a / b)

/-- JS `arr.reduce((a,b)=>a+b,0)` over IEEE-754 doubles. -/
def jsSumFp (arr : List JsNum) : JsNum := arr.foldl JsNum.fpAdd (JsNum.fin 0)

/-- The per-group value of `aggregate` over IEEE-754 doubles: `sum` and
`avg` round after every addition and after the division; `min`, `max`,
`count` and `distinct` involve no rounding (`Math.min`/`Math.max` return
one of their arguments exactly, the other two are small integer counts). -/
def aggValueFp (agg : String) (arr : List JsNum) : JsNum :=
  if agg = "avg" then JsNum.fpDiv (jsSumFp arr) (JsNum.fin arr.length)
  else if agg = "min" then arr.foldl JsNum.min2 JsNum.inf
  else if agg = "max" then arr.foldl JsNum.max2 JsNum.ninf
  else if agg = "count" then JsNum.fin arr.length
  else if agg = "distinct" then JsNum.fin arr.dedup.length
  else jsSumFp arr

/-- The unsorted `(label, value)` pairs of `aggregate` over IEEE-754
doubles. -/
def aggPairsFp (rows : List Row) (x y agg : String) : List (String × JsNum) :=
  (keysOf rows x).map (fun k => (k, aggValueFp (normAgg agg) (groupVals rows x y k)))

/-- `aggregate` from `src/App.py` over IEEE-754 doubles: as `aggregate`,
with the sums and the `avg` division rounded to binary64 after every
operation, as a JavaScript engine computes them. -/
def aggregateFp (rows : List Row) (x y agg : String) : List (String × JsNum) :=
  (aggPairsFp rows x y agg).mergeSort (fun p q => strLe p.1 q.1)

/-- One region whose `Sales` measures are the binary64 values of the
literals `0.1`, `0.2` and `0.3` (`0.1` is `3602879701896397 * 2 ^ (-55)`,
and so on): the classic non-associative sum. -/
def fpRows : List Row :=
  [[("Region", Value.vStr "East"), ("Sales", Value.vNum (3602879701896397 / 2 ^ 55))],
   [("Region", Value.vStr "East"), ("Sales", Value.vNum (3602879701896397 / 2 ^ 54))],
   [("Region", Value.vStr "East"), ("Sales", Value.vNum (5404319552844595 / 2 ^ 54))]]


theorem flog2q_eval (y : ℚ) (e : ℤ)
    (he0 : (lg2 y.num.toNat : ℤ) - (lg2 y.den : ℤ) = e)
    (hge : ¬ y < pw2 e) : flog2q y = e := by
  unfold flog2q
  simp only [he0]
  rw [if_neg hge]

theorem rhe_eval_lo (r : ℚ) (n : ℕ) (hn : r.num.toNat / r.den = n)
    (hf : r - (n : ℚ) < 1 / 2) : rhe r = n := by
  unfold rhe
  simp only [hn]
  rw [if_pos hf]

theorem rhe_eval_tie_odd (r : ℚ) (n : ℕ) (hn : r.num.toNat / r.den = n)
    (hf : r - (n : ℚ) = 1 / 2) (hodd : n % 2 = 1) : rhe r = n + 1 := by
  unfold rhe
  simp only [hn]
  rw [if_neg (by rw [hf]; exact lt_irrefl _), if_neg (by rw [hf]; exact lt_irrefl _),
    if_neg (by omega)]

theorem fpRound_pos_eval (x : ℚ) (e : ℤ) (m : ℕ) (v : ℚ)
    (hx : 0 < x)
    (he0 : (lg2 x.num.toNat : ℤ) - (lg2 x.den : ℤ) = e)
    (hge : ¬ x < pw2 e)
    (helow : ¬ e < -1022)
    (hm : rhe (x / pw2 (e - 52)) = m)
    (hm53 : m ≠ 2 ^ 53)
    (hhi : ¬ 1023 < e)
    (hv : (m : ℚ) * pw2 (e - 52) = v) :
    fpRound x = JsNum.fin v := by
  unfold fpRound
  rw [if_neg hx.ne', if_pos hx]
  unfold roundPos
  simp only [flog2q_eval x e he0 hge]
  rw [if_neg helow]
  simp only [hm]
  rw [if_neg hm53, if_neg hhi, hv]

theorem pw2_n1 : pw2 (-1) = 1 / (2 ^ 1 : ℚ) := by
  unfold pw2
  rw [if_neg (by decide), show (-(-1 : ℤ)).toNat = 1 from rfl]
  norm_num

theorem pw2_n2 : pw2 (-2) = 1 / (2 ^ 2 : ℚ) := by
  unfold pw2
  rw [if_neg (by decide), show (-(-2 : ℤ)).toNat = 2 from rfl]
  norm_num

theorem pw2_n4 : pw2 (-4) = 1 / (2 ^ 4 : ℚ) := by
  unfold pw2
  rw [if_neg (by decide), show (-(-4 : ℤ)).toNat = 4 from rfl]
  norm_num

theorem pw2_n53 : pw2 (-53) = 1 / (2 ^ 53 : ℚ) := by
  unfold pw2
  rw [if_neg (by decide), show (-(-53 : ℤ)).toNat = 53 from rfl]
  norm_num

theorem pw2_n54 : pw2 (-54) = 1 / (2 ^ 54 : ℚ) := by
  unfold pw2
  rw [if_neg (by decide), show (-(-54 : ℤ)).toNat = 54 from rfl]
  norm_num

theorem pw2_n56 : pw2 (-56) = 1 / (2 ^ 56 : ℚ) := by
  unfold pw2
  rw [if_neg (by decide), show (-(-56 : ℤ)).toNat = 56 from rfl]
  norm_num

theorem fpStep1 : fpRound ((0 : ℚ) + 3602879701896397 / 2 ^ 55) =
    JsNum.fin (3602879701896397 / 2 ^ 55) := by
  have ha : ((0 : ℚ) + 3602879701896397 / 2 ^ 55).num = 3602879701896397 := by norm_num
  have hb : ((0 : ℚ) + 3602879701896397 / 2 ^ 55).den = 36028797018963968 := by norm_num
  have hdiv : ((0 : ℚ) + 3602879701896397 / 2 ^ 55) / pw2 (-4 - 52) =
      ((7205759403792794 : ℚ)) := by
    rw [show (-4 - 52 : ℤ) = -56 by decide, pw2_n56]
    norm_num
  refine fpRound_pos_eval _ (-4) 7205759403792794 _ (by norm_num) ?_ ?_ (by decide)
    ?_ (by decide) (by decide) ?_
  · rw [ha, hb, show ((3602879701896397 : ℤ)).toNat = 3602879701896397 from rfl]
    rw [show lg2 3602879701896397 = 51 from by decide,
      show lg2 36028797018963968 = 55 from by decide]
    decide
  · rw [pw2_n4]
    norm_num
  · rw [hdiv]
    refine rhe_eval_lo _ _ ?_ (by norm_num)
    rw [show ((7205759403792794 : ℚ)).num = 7205759403792794 from by norm_num,
      show ((7205759403792794 : ℚ)).den = 1 from by norm_num]
    decide
  · rw [show (-4 - 52 : ℤ) = -56 by decide, pw2_n56]
    norm_num

theorem fpStep2 : fpRound ((3602879701896397 : ℚ) / 2 ^ 55 + 3602879701896397 / 2 ^ 54) =
    JsNum.fin (5404319552844596 / 2 ^ 54) := by
  have ha : ((3602879701896397 : ℚ) / 2 ^ 55 + 3602879701896397 / 2 ^ 54).num =
      10808639105689191 := by norm_num
  have hb : ((3602879701896397 : ℚ) / 2 ^ 55 + 3602879701896397 / 2 ^ 54).den =
      36028797018963968 := by norm_num
  have hdiv : ((3602879701896397 : ℚ) / 2 ^ 55 + 3602879701896397 / 2 ^ 54) /
      pw2 (-2 - 52) = ((10808639105689191 : ℚ) / 2) := by
    rw [show (-2 - 52 : ℤ) = -54 by decide, pw2_n54]
    norm_num
  refine fpRound_pos_eval _ (-2) 5404319552844596 _ (by norm_num) ?_ ?_ (by decide)
    ?_ (by decide) (by decide) ?_
  · rw [ha, hb, show ((10808639105689191 : ℤ)).toNat = 10808639105689191 from rfl]
    rw [show lg2 10808639105689191 = 53 from by decide,
      show lg2 36028797018963968 = 55 from by decide]
    decide
  · rw [pw2_n2]
    norm_num
  · rw [hdiv]
    have h := rhe_eval_tie_odd ((10808639105689191 : ℚ) / 2) 5404319552844595 ?_ ?_
      (by decide)
    · omega
    · rw [show ((10808639105689191 : ℚ) / 2).num = 10808639105689191 from by norm_num,
        show ((10808639105689191 : ℚ) / 2).den = 2 from by norm_num]
      decide
    · norm_num
  · rw [show (-2 - 52 : ℤ) = -54 by decide, pw2_n54]
    norm_num

theorem fpStep3 : fpRound ((5404319552844596 : ℚ) / 2 ^ 54 + 5404319552844595 / 2 ^ 54) =
    JsNum.fin (5404319552844596 / 2 ^ 53) := by
  have ha : ((5404319552844596 : ℚ) / 2 ^ 54 + 5404319552844595 / 2 ^ 54).num =
      10808639105689191 := by norm_num
  have hb : ((5404319552844596 : ℚ) / 2 ^ 54 + 5404319552844595 / 2 ^ 54).den =
      18014398509481984 := by norm_num
  have hdiv : ((5404319552844596 : ℚ) / 2 ^ 54 + 5404319552844595 / 2 ^ 54) /
      pw2 (-1 - 52) = ((10808639105689191 : ℚ) / 2) := by
    rw [show (-1 - 52 : ℤ) = -53 by decide, pw2_n53]
    norm_num
  refine fpRound_pos_eval _ (-1) 5404319552844596 _ (by norm_num) ?_ ?_ (by decide)
    ?_ (by decide) (by decide) ?_
  · rw [ha, hb, show ((10808639105689191 : ℤ)).toNat = 10808639105689191 from rfl]
    rw [show lg2 10808639105689191 = 53 from by decide,
      show lg2 18014398509481984 = 54 from by decide]
    decide
  · rw [pw2_n1]
    norm_num
  · rw [hdiv]
    have h := rhe_eval_tie_odd ((10808639105689191 : ℚ) / 2) 5404319552844595 ?_ ?_
      (by decide)
    · omega
    · rw [show ((10808639105689191 : ℚ) / 2).num = 10808639105689191 from by norm_num,
        show ((10808639105689191 : ℚ) / 2).den = 2 from by norm_num]
      decide
    · norm_num
  · rw [show (-1 - 52 : ℤ) = -53 by decide, pw2_n53]
    norm_num

theorem fpStep4 : fpRound ((0 : ℚ) + 5404319552844595 / 2 ^ 54) =
    JsNum.fin (5404319552844595 / 2 ^ 54) := by
  have ha : ((0 : ℚ) + 5404319552844595 / 2 ^ 54).num = 5404319552844595 := by norm_num
  have hb : ((0 : ℚ) + 5404319552844595 / 2 ^ 54).den = 18014398509481984 := by norm_num
  have hdiv : ((0 : ℚ) + 5404319552844595 / 2 ^ 54) / pw2 (-2 - 52) =
      ((5404319552844595 : ℚ)) := by
    rw [show (-2 - 52 : ℤ) = -54 by decide, pw2_n54]
    norm_num
  refine fpRound_pos_eval _ (-2) 5404319552844595 _ (by norm_num) ?_ ?_ (by decide)
    ?_ (by decide) (by decide) ?_
  · rw [ha, hb, show ((5404319552844595 : ℤ)).toNat = 5404319552844595 from rfl]
    rw [show lg2 5404319552844595 = 52 from by decide,
      show lg2 18014398509481984 = 54 from by decide]
    decide
  · rw [pw2_n2]
    norm_num
  · rw [hdiv]
    refine rhe_eval_lo _ _ ?_ (by norm_num)
    rw [show ((5404319552844595 : ℚ)).num = 5404319552844595 from by norm_num,
      show ((5404319552844595 : ℚ)).den = 1 from by norm_num]
    decide
  · rw [show (-2 - 52 : ℤ) = -54 by decide, pw2_n54]
    norm_num

theorem fpStep5 : fpRound ((5404319552844595 : ℚ) / 2 ^ 54 + 3602879701896397 / 2 ^ 54) =
    JsNum.fin (1 / 2) := by
  have ha : ((5404319552844595 : ℚ) / 2 ^ 54 + 3602879701896397 / 2 ^ 54).num = 1 := by
    norm_num
  have hb : ((5404319552844595 : ℚ) / 2 ^ 54 + 3602879701896397 / 2 ^ 54).den = 2 := by
    norm_num
  have hdiv : ((5404319552844595 : ℚ) / 2 ^ 54 + 3602879701896397 / 2 ^ 54) /
      pw2 (-1 - 52) = ((4503599627370496 : ℚ)) := by
    rw [show (-1 - 52 : ℤ) = -53 by decide, pw2_n53]
    norm_num
  refine fpRound_pos_eval _ (-1) 4503599627370496 _ (by norm_num) ?_ ?_ (by decide)
    ?_ (by decide) (by decide) ?_
  · rw [ha, hb, show ((1 : ℤ)).toNat = 1 from rfl]
    rw [show lg2 1 = 0 from by decide, show lg2 2 = 1 from by decide]
    decide
  · rw [pw2_n1]
    norm_num
  · rw [hdiv]
    refine rhe_eval_lo _ _ ?_ (by norm_num)
    rw [show ((4503599627370496 : ℚ)).num = 4503599627370496 from by norm_num,
      show ((4503599627370496 : ℚ)).den = 1 from by norm_num]
    decide
  · rw [show (-1 - 52 : ℤ) = -53 by decide, pw2_n53]
    norm_num

theorem fpStep6 : fpRound ((1 : ℚ) / 2 + 3602879701896397 / 2 ^ 55) =
    JsNum.fin (5404319552844595 / 2 ^ 53) := by
  have ha : ((1 : ℚ) / 2 + 3602879701896397 / 2 ^ 55).num = 21617278211378381 := by
    norm_num
  have hb : ((1 : ℚ) / 2 + 3602879701896397 / 2 ^ 55).den = 36028797018963968 := by
    norm_num
  have hdiv : ((1 : ℚ) / 2 + 3602879701896397 / 2 ^ 55) / pw2 (-1 - 52) =
      ((21617278211378381 : ℚ) / 4) := by
    rw [show (-1 - 52 : ℤ) = -53 by decide, pw2_n53]
    norm_num
  refine fpRound_pos_eval _ (-1) 5404319552844595 _ (by norm_num) ?_ ?_ (by decide)
    ?_ (by decide) (by decide) ?_
  · rw [ha, hb, show ((21617278211378381 : ℤ)).toNat = 21617278211378381 from rfl]
    rw [show lg2 21617278211378381 = 54 from by decide,
      show lg2 36028797018963968 = 55 from by decide]
    decide
  · rw [pw2_n1]
    norm_num
  · rw [hdiv]
    refine rhe_eval_lo _ _ ?_ (by norm_num)
    rw [show ((21617278211378381 : ℚ) / 4).num = 21617278211378381 from by norm_num,
      show ((21617278211378381 : ℚ) / 4).den = 4 from by norm_num]
    decide
  · rw [show (-1 - 52 : ℤ) = -53 by decide, pw2_n53]
    norm_num

theorem jsSumFp_fwd :
    jsSumFp [JsNum.fin (3602879701896397 / 2 ^ 55),
        JsNum.fin (3602879701896397 / 2 ^ 54),
        JsNum.fin (5404319552844595 / 2 ^ 54)] =
      JsNum.fin (5404319552844596 / 2 ^ 53) := by
  have e1 : JsNum.fpAdd (JsNum.fin 0) (JsNum.fin (3602879701896397 / 2 ^ 55)) =
      JsNum.fin (3602879701896397 / 2 ^ 55) := by
    show fpRound ((0 : ℚ) + 3602879701896397 / 2 ^ 55) = _
    exact fpStep1
  have e2 : JsNum.fpAdd (JsNum.fin (3602879701896397 / 2 ^ 55))
      (JsNum.fin (3602879701896397 / 2 ^ 54)) =
      JsNum.fin (5404319552844596 / 2 ^ 54) := by
    show fpRound ((3602879701896397 : ℚ) / 2 ^ 55 + 3602879701896397 / 2 ^ 54) = _
    exact fpStep2
  have e3 : JsNum.fpAdd (JsNum.fin (5404319552844596 / 2 ^ 54))
      (JsNum.fin (5404319552844595 / 2 ^ 54)) =
      JsNum.fin (5404319552844596 / 2 ^ 53) := by
    show fpRound ((5404319552844596 : ℚ) / 2 ^ 54 + 5404319552844595 / 2 ^ 54) = _
    exact fpStep3
  unfold jsSumFp
  simp only [List.foldl_cons, List.foldl_nil]
  rw [e1, e2, e3]

theorem jsSumFp_rev :
    jsSumFp [JsNum.fin (5404319552844595 / 2 ^ 54),
        JsNum.fin (3602879701896397 / 2 ^ 54),
        JsNum.fin (3602879701896397 / 2 ^ 55)] =
      JsNum.fin (5404319552844595 / 2 ^ 53) := by
  have e1 : JsNum.fpAdd (JsNum.fin 0) (JsNum.fin (5404319552844595 / 2 ^ 54)) =
      JsNum.fin (5404319552844595 / 2 ^ 54) := by
    show fpRound ((0 : ℚ) + 5404319552844595 / 2 ^ 54) = _
    exact fpStep4
  have e2 : JsNum.fpAdd (JsNum.fin (5404319552844595 / 2 ^ 54))
      (JsNum.fin (3602879701896397 / 2 ^ 54)) = JsNum.fin (1 / 2) := by
    show fpRound ((5404319552844595 : ℚ) / 2 ^ 54 + 3602879701896397 / 2 ^ 54) = _
    exact fpStep5
  have e3 : JsNum.fpAdd (JsNum.fin (1 / 2))
      (JsNum.fin (3602879701896397 / 2 ^ 55)) =
      JsNum.fin (5404319552844595 / 2 ^ 53) := by
    show fpRound ((1 : ℚ) / 2 + 3602879701896397 / 2 ^ 55) = _
    exact fpStep6
  unfold jsSumFp
  simp only [List.foldl_cons, List.foldl_nil]
  rw [e1, e2, e3]

/-- C2 counterexample.  Double addition rounds, so it is not associative:
summing the binary64 values of `0.1`, `0.2`, `0.3` left to right gives
`0.6000000000000001` (`5404319552844596 * 2 ^ (-53)`) while the reversed
order gives `0.6` (`5404319552844595 * 2 ^ (-53)`); `aggregate`'s `sum`
output is therefore not invariant under permutation of the input rows. -/
theorem aggregate_sum_fp_counterexample :
    fpRows.Perm fpRows.reverse ∧
    aggregateFp fpRows "Region" "Sales" "sum" =
      [("East", JsNum.fin (5404319552844596 / 2 ^ 53))] ∧
    aggregateFp fpRows.reverse "Region" "Sales" "sum" =
      [("East", JsNum.fin (5404319552844595 / 2 ^ 53))] ∧
    aggregateFp fpRows "Region" "Sales" "sum" ≠
      aggregateFp fpRows.reverse "Region" "Sales" "sum" := by
  have hp1 : aggPairsFp fpRows "Region" "Sales" "sum" =
      [("East", jsSumFp [JsNum.fin (3602879701896397 / 2 ^ 55),
        JsNum.fin (3602879701896397 / 2 ^ 54),
        JsNum.fin (5404319552844595 / 2 ^ 54)])] := rfl
  have hp2 : aggPairsFp fpRows.reverse "Region" "Sales" "sum" =
      [("East", jsSumFp [JsNum.fin (5404319552844595 / 2 ^ 54),
        JsNum.fin (3602879701896397 / 2 ^ 54),
        JsNum.fin (3602879701896397 / 2 ^ 55)])] := rfl
  have e1 : aggregateFp fpRows "Region" "Sales" "sum" =
      [("East", JsNum.fin (5404319552844596 / 2 ^ 53))] := by
    unfold aggregateFp
    rw [hp1, jsSumFp_fwd, List.mergeSort_singleton]
  have e2 : aggregateFp fpRows.reverse "Region" "Sales" "sum" =
      [("East", JsNum.fin (5404319552844595 / 2 ^ 53))] := by
    unfold aggregateFp
    rw [hp2, jsSumFp_rev, List.mergeSort_singleton]
  refine ⟨(List.reverse_perm fpRows).symm, e1, e2, ?_⟩
  rw [e1, e2]
  intro hcon
  injection hcon with h1 h2
  injection h1 with h3 h4
  injection h4 with h5
  exact absurd h5 (by norm_num)

theorem aggPairsFp_fst (rows : List Row) (x y a : String) :
    (aggPairsFp rows x y a).map Prod.fst = keysOf rows x := by
  unfold aggPairsFp
  rw [List.map_map]
  exact List.map_id _

theorem aggregateFp_perm_pairs (rows : List Row) (x y a : String) :
    (aggregateFp rows x y a).Perm (aggPairsFp rows x y a) :=
  List.mergeSort_perm _ _

theorem aggregateFp_fst_nodup (rows : List Row) (x y a : String) :
    ((aggregateFp rows x y a).map Prod.fst).Nodup := by
  have h1 := (aggregateFp_perm_pairs rows x y a).map Prod.fst
  rw [h1.nodup_iff, aggPairsFp_fst]
  exact keysOf_nodup rows x

theorem aggregateFp_pairwise_le (rows : List Row) (x y a : String) :
    (aggregateFp rows x y a).Pairwise (fun p q => strLe p.1 q.1 = true) := by
  unfold aggregateFp
  exact List.sorted_mergeSort
    (fun (p q u : String × JsNum) (hpq : strLe p.1 q.1 = true)
        (hqu : strLe q.1 u.1 = true) => charListLe_trans _ _ _ hpq hqu)
    (fun (p q : String × JsNum) => charListLe_total p.1.toList q.1.toList)
    (aggPairsFp rows x y a)

theorem aggregateFp_pairwise_lt (rows : List Row) (x y a : String) :
    (aggregateFp rows x y a).Pairwise (fun p q => strLt p.1 q.1 = true) := by
  have hle := aggregateFp_pairwise_le rows x y a
  have hne : (aggregateFp rows x y a).Pairwise (fun p q => p.1 ≠ q.1) :=
    List.pairwise_map.mp (aggregateFp_fst_nodup rows x y a)
  exact (hle.and hne).imp (fun h =>
    charListLt_of_le_of_ne _ _ h.1 (fun hx => h.2 (String.ext hx)))

theorem aggValueFp_perm_kinds (agg : String)
    (hk : agg = "min" ∨ agg = "max" ∨ agg = "count" ∨ agg = "distinct")
    {l1 l2 : List JsNum} (p : l1.Perm l2) :
    aggValueFp agg l1 = aggValueFp agg l2 := by
  rcases hk with h | h | h | h <;> subst h
  · show l1.foldl JsNum.min2 JsNum.inf = l2.foldl JsNum.min2 JsNum.inf
    exact foldMin_perm p
  · show l1.foldl JsNum.max2 JsNum.ninf = l2.foldl JsNum.max2 JsNum.ninf
    exact foldMax_perm p
  · show JsNum.fin l1.length = JsNum.fin l2.length
    rw [p.length_eq]
  · show JsNum.fin l1.dedup.length = JsNum.fin l2.dedup.length
    rw [(p.dedup).length_eq]

theorem aggPairsFp_perm_kinds (x y a : String)
    (hk : normAgg a = "min" ∨ normAgg a = "max" ∨ normAgg a = "count" ∨
      normAgg a = "distinct")
    {rows rows' : List Row} (p : rows.Perm rows') :
    (aggPairsFp rows x y a).Perm (aggPairsFp rows' x y a) := by
  unfold aggPairsFp
  have h1 : (keysOf rows x).map
        (fun k => (k, aggValueFp (normAgg a) (groupVals rows x y k))) =
      (keysOf rows x).map
        (fun k => (k, aggValueFp (normAgg a) (groupVals rows' x y k))) :=
    List.map_congr_left (fun k _ => by
      rw [aggValueFp_perm_kinds (normAgg a) hk (groupVals_perm x y k p)])
  rw [h1]
  exact (keysOf_perm x p).map _

instance : IsAntisymm String (fun s t => strLt s t = true) :=
  ⟨fun _ _ h1 h2 => absurd (charListLt_asymm _ _ h1 h2) not_false⟩

/-- C2 (amended).  Over the IEEE-754 refinement of `aggregate` (binary64
rounding after every `+` and `/`), the sequence of group labels is
strictly sorted in ascending label order and invariant under permutation
of the input rows for every aggregation kind; for `min`, `max`, `count`
and `distinct` (which never round) the whole output, values included, is
permutation-invariant.  For `sum` and `avg` the values are not
permutation-invariant: double addition is non-associative (see the
counterexample). -/
theorem aggregate_sorted_fp (rows rows' : List Row) (x y a : String)
    (hp : rows.Perm rows') :
    (aggregateFp rows x y a).map Prod.fst =
      (aggregateFp rows' x y a).map Prod.fst ∧
    (aggregateFp rows x y a).Pairwise (fun p q => strLt p.1 q.1 = true) ∧
    ((normAgg a = "min" ∨ normAgg a = "max" ∨ normAgg a = "count" ∨
        normAgg a = "distinct") →
      aggregateFp rows x y a = aggregateFp rows' x y a) := by
  refine ⟨?_, aggregateFp_pairwise_lt rows x y a, ?_⟩
  · have h1 := (aggregateFp_perm_pairs rows x y a).map Prod.fst
    have h2 := (aggregateFp_perm_pairs rows' x y a).map Prod.fst
    rw [aggPairsFp_fst] at h1 h2
    have hperm : ((aggregateFp rows x y a).map Prod.fst).Perm
        ((aggregateFp rows' x y a).map Prod.fst) :=
      (h1.trans (keysOf_perm x hp)).trans h2.symm
    have hs1 : ((aggregateFp rows x y a).map Prod.fst).Pairwise
        (fun s t => strLt s t = true) :=
      List.pairwise_map.mpr (aggregateFp_pairwise_lt rows x y a)
    have hs2 : ((aggregateFp rows' x y a).map Prod.fst).Pairwise
        (fun s t => strLt s t = true) :=
      List.pairwise_map.mpr (aggregateFp_pairwise_lt rows' x y a)
    exact List.eq_of_perm_of_sorted hperm hs1 hs2
  · intro hk
    have hperm : (aggregateFp rows x y a).Perm (aggregateFp rows' x y a) :=
      ((aggregateFp_perm_pairs rows x y a).trans
        (aggPairsFp_perm_kinds x y a hk hp)).trans
        (aggregateFp_perm_pairs rows' x y a).symm
    exact List.eq_of_perm_of_sorted hperm
      (aggregateFp_pairwise_lt rows x y a) (aggregateFp_pairwise_lt rows' x y a)

theorem aggregate_sorted_fp_witness :
    (aggregateFp demoRows "Region" "Sales" "min").map Prod.fst =
      (aggregateFp demoRows.reverse "Region" "Sales" "min").map Prod.fst ∧
    (aggregateFp demoRows "Region" "Sales" "min").Pairwise
      (fun p q => strLt p.1 q.1 = true) ∧
    ((normAgg "min" = "min" ∨ normAgg "min" = "max" ∨ normAgg "min" = "count" ∨
        normAgg "min" = "distinct") →
      aggregateFp demoRows "Region" "Sales" "min" =
        aggregateFp demoRows.reverse "Region" "Sales" "min") :=
  aggregate_sorted_fp demoRows demoRows.reverse "Region" "Sales" "min"
    ((List.reverse_perm demoRows).symm)
